import Mathlib

/-!
BEKKs: sign indicators and elimination / commutation / duplication matrices

A shallow embedding of `src/IndicatorFunction.cpp`.

* The matrices handled by the indicator functions (`DMat`) hold arbitrary doubles:
  finite values, the two infinities and NaN.  The product tested by `indicatorFunction`
  and the quotient returned by `expected_indicator_value` are rounded to the nearest
  double, ties to even, as IEEE arithmetic does.
* The matrices built by `elimination_mat`, `commutation_mat` and `duplication_mat` (`Mat`)
  hold exact rationals; their entries are 0, 1, 2 and 1/2, on which double arithmetic is
  exact.
* A C++ `int` is an `Int`; an Armadillo `uword` (dimension or index) is a `Nat`.  A
  negative `int` converted to `uword` wraps modulo `2 ^ 32`.  The square `pow(n, 2)` of
  the source is written `n * n`.  Sizes are otherwise not bounded in the definitions:
  they agree with the 32-bit arithmetic of the source as long as `n * n` fits in the
  `uword` or `int` it is converted to and the `int` expressions `n * (n + 1)` and
  `i + n * (j - 1)` do not overflow, and that bound is a hypothesis of the statements
  that describe the matrix returned for every admissible `n`.  Memory limits are not
  modelled.
* Every Armadillo call that can raise (bounds check, conformance check, `as_scalar`,
  `inv`) returns `Except ArmaError _`.
-/

namespace BEKKs

/-! ## Armadillo primitives used by the source -/

/-- Errors raised by the Armadillo calls of the source.  `outOfFuel` is not an Armadillo
error: it marks a loop of the model that used up its iteration budget. -/
inductive ArmaError where
  | indexOutOfBounds
  | sizeMismatch
  | notScalar
  | notSquare
  | singular
  | outOfFuel
  deriving DecidableEq, Repr

/-- Width of the Armadillo index type `uword`.  RcppArmadillo selects 32-bit words unless
told otherwise; a 64-bit word changes the wrapped values, not the outcome of the bounds
checks below. -/
def uwordBits : Nat := 32

/-- Conversion of an `int` to `uword`.  A non-negative value is kept, a negative value
wraps modulo `2 ^ uwordBits`. -/
def toUword (z : Int) : Nat :=
  if 0 ≤ z then z.toNat else (z % (2 : Int) ^ uwordBits).toNat

/-- A dense matrix: `arma::mat`.  `elem i j` is the entry in row `i`, column `j`; only
`i < n_rows`, `j < n_cols` is meaningful. -/
structure Mat where
  n_rows : Nat
  n_cols : Nat
  elem : Nat → Nat → ℚ

namespace Mat

/-- Matrix with ones on the main diagonal: `arma::eye(r, c)`. -/
def eye (r c : Nat) : Mat := ⟨r, c, fun i j => if i = j then 1 else 0⟩

/-- Matrix of zeros: `arma::zeros(r, c)`. -/
def zeros (r c : Nat) : Mat := ⟨r, c, fun _ _ => 0⟩

/-- Transpose: `A.t()`. -/
def t (A : Mat) : Mat := ⟨A.n_cols, A.n_rows, fun i j => A.elem j i⟩

/-- Column view: `A.col(j)`, bounds-checked. -/
def col (A : Mat) (j : Nat) : Except ArmaError Mat :=
  if j < A.n_cols then .ok ⟨A.n_rows, 1, fun i _ => A.elem i j⟩
  else .error .indexOutOfBounds

/-- Contiguous column range: `A.cols(a, b)`, both ends included.  Armadillo rejects
`a > b` and `b >= n_cols`. -/
def cols (A : Mat) (a b : Nat) : Except ArmaError Mat :=
  if a > b ∨ b ≥ A.n_cols then .error .indexOutOfBounds
  else .ok ⟨A.n_rows, b - a + 1, fun i j => A.elem i (a + j)⟩

/-- Horizontal concatenation: `arma::join_horiz(A, B)`.  The row counts must agree unless
one operand is empty. -/
def join_horiz (A B : Mat) : Except ArmaError Mat :=
  if A.n_rows ≠ B.n_rows ∧ (A.n_rows > 0 ∨ A.n_cols > 0) ∧ (B.n_rows > 0 ∨ B.n_cols > 0) then
    .error .sizeMismatch
  else
    .ok ⟨max A.n_rows B.n_rows, A.n_cols + B.n_cols,
      fun i j => if j < A.n_cols then A.elem i j else B.elem i (j - A.n_cols)⟩

/-- Element assignment `A(i, j) = v`, bounds-checked. -/
def set (A : Mat) (i j : Nat) (v : ℚ) : Except ArmaError Mat :=
  if i < A.n_rows ∧ j < A.n_cols then
    .ok ⟨A.n_rows, A.n_cols, fun a b => if a = i ∧ b = j then v else A.elem a b⟩
  else .error .indexOutOfBounds

/-- Matrix sum `A + B`, conformance-checked. -/
def add (A B : Mat) : Except ArmaError Mat :=
  if A.n_rows = B.n_rows ∧ A.n_cols = B.n_cols then
    .ok ⟨A.n_rows, A.n_cols, fun i j => A.elem i j + B.elem i j⟩
  else .error .sizeMismatch

/-- Matrix product `A * B`, conformance-checked. -/
def mul (A B : Mat) : Except ArmaError Mat :=
  if A.n_cols = B.n_rows then
    .ok ⟨A.n_rows, B.n_cols, fun i j => ∑ k in Finset.range A.n_cols, A.elem i k * B.elem k j⟩
  else .error .sizeMismatch

/-- Two matrices have the same shape and the same entries. -/
def sameAs (A B : Mat) : Prop :=
  A.n_rows = B.n_rows ∧ A.n_cols = B.n_cols ∧
    ∀ i, i < A.n_rows → ∀ j, j < A.n_cols → A.elem i j = B.elem i j

end Mat

/-- The loop `for (int i = lo; i < hi; i++) body`, threading a state. -/
def forInt {σ : Type} (lo hi : Int) (body : Int → σ → Except ArmaError σ) (s : σ) :
    Except ArmaError σ :=
  (List.range (hi - lo).toNat).foldlM (fun acc (k : Nat) => body (lo + (k : Int)) acc) s

/-! ## Gauss–Jordan inverse standing for `arma::inv` -/

/-- First row index `p` with `k ≤ p < m` whose entry in column `k` is non-zero. -/
def findPivot (m k : Nat) (A : Nat → Nat → ℚ) : Option Nat :=
  (List.range' k (m - k)).find? (fun p => decide (A p k ≠ 0))

/-- Exchange rows `k` and `p`. -/
def swapRows (k p : Nat) (M : Nat → Nat → ℚ) : Nat → Nat → ℚ :=
  fun i j => if i = k then M p j else if i = p then M k j else M i j

/-- Divide row `k` by the pivot `c` and clear column `k` in the other rows; `A` supplies
the multipliers, `M` is the matrix being transformed. -/
def clearColumn (k : Nat) (c : ℚ) (A M : Nat → Nat → ℚ) : Nat → Nat → ℚ :=
  fun i j => if i = k then M k j / c else M i j - A i k * (M k j / c)

/-- Gauss–Jordan elimination on the pair `(A | B)` for pivot columns `k, k+1, …`,
`steps` of them.  Returns the right half, or `none` when a pivot is missing. -/
def gaussJordan (m : Nat) : Nat → Nat → (Nat → Nat → ℚ) → (Nat → Nat → ℚ) →
    Option (Nat → Nat → ℚ)
  | 0, _, _, B => some B
  | steps + 1, k, A, B =>
    match findPivot m k A with
    | none => none
    | some p =>
      let A1 := swapRows k p A
      let B1 := swapRows k p B
      let c := A1 k k
      gaussJordan m steps (k + 1) (clearColumn k c A1 A1) (clearColumn k c A1 B1)

/-- Inverse of a square matrix: `arma::inv(A)`.  The library call raises an error when
the matrix is not square or is singular; the inverse is computed here exactly, by
Gauss–Jordan elimination. -/
def Mat.inv (A : Mat) : Except ArmaError Mat :=
  if A.n_rows ≠ A.n_cols then .error .notSquare
  else
    match gaussJordan A.n_rows A.n_rows 0 A.elem (Mat.eye A.n_rows A.n_rows).elem with
    | none => .error .singular
    | some B => .ok ⟨A.n_rows, A.n_rows, B⟩

/-! ## Double values and the matrices of the indicator functions -/

/-- A `double`: a finite value, an infinity or NaN.  The two zeros are not told apart;
they compare alike. -/
inductive DoubleVal where
  | num (q : ℚ)
  | posInf
  | negInf
  | nan

/-- Nearest integer to `m ≥ 0`, ties to the even neighbour. -/
def roundHalfEven (m : ℚ) : Int :=
  if m - (⌊m⌋ : ℚ) < 1 / 2 then ⌊m⌋
  else if 1 / 2 < m - (⌊m⌋ : ℚ) then ⌊m⌋ + 1
  else if ⌊m⌋ % 2 = 0 then ⌊m⌋ else ⌊m⌋ + 1

/-- Exponent of the unit in the last place of the doubles around `a > 0`: 53 significant
bits, and never below the subnormal spacing `2 ^ (-1074)`. -/
def ulpExponent (a : ℚ) : Int := max (Int.log 2 a - 52) (-1074)

/-- The magnitude `a > 0` rounded to a multiple of its unit in the last place. -/
def roundMagnitude (a : ℚ) : ℚ :=
  (roundHalfEven (a / (2 : ℚ) ^ ulpExponent a) : ℚ) * (2 : ℚ) ^ ulpExponent a

/-- IEEE rounding of an exact result to the nearest double, ties to even; a magnitude
that rounds to `2 ^ 1024` or more overflows to an infinity. -/
def roundDouble (q : ℚ) : DoubleVal :=
  if q = 0 then .num 0
  else if 0 < q then
    if roundMagnitude q < (2 : ℚ) ^ (1024 : ℕ) then .num (roundMagnitude q) else .posInf
  else
    if roundMagnitude (-q) < (2 : ℚ) ^ (1024 : ℕ) then .num (-roundMagnitude (-q)) else .negInf

namespace DoubleVal

/-- The product `x * y` of two doubles. -/
def mul : DoubleVal → DoubleVal → DoubleVal
  | .nan, _ => .nan
  | _, .nan => .nan
  | .num a, .num b => roundDouble (a * b)
  | .num a, .posInf => if a = 0 then .nan else if 0 < a then .posInf else .negInf
  | .num a, .negInf => if a = 0 then .nan else if 0 < a then .negInf else .posInf
  | .posInf, .num b => if b = 0 then .nan else if 0 < b then .posInf else .negInf
  | .negInf, .num b => if b = 0 then .nan else if 0 < b then .negInf else .posInf
  | .posInf, .posInf => .posInf
  | .posInf, .negInf => .negInf
  | .negInf, .posInf => .negInf
  | .negInf, .negInf => .posInf

/-- The comparison `x < 0`; false on NaN. -/
def ltZero : DoubleVal → Bool
  | .num q => decide (q < 0)
  | .negInf => true
  | _ => false

end DoubleVal

/-- An `arma::mat` of doubles, as passed to the indicator functions.  `elem i j` is the
entry in row `i`, column `j`; only `i < n_rows`, `j < n_cols` is meaningful. -/
structure DMat where
  n_rows : Nat
  n_cols : Nat
  elem : Nat → Nat → DoubleVal

namespace DMat

/-- Transpose: `A.t()`. -/
def t (A : DMat) : DMat := ⟨A.n_cols, A.n_rows, fun i j => A.elem j i⟩

/-- Row view: `A.row(i)`, bounds-checked. -/
def row (A : DMat) (i : Nat) : Except ArmaError DMat :=
  if i < A.n_rows then .ok ⟨1, A.n_cols, fun _ j => A.elem i j⟩
  else .error .indexOutOfBounds

/-- Conversion of a one-element expression to a scalar: `arma::as_scalar(A)`. -/
def as_scalar (A : DMat) : Except ArmaError DoubleVal :=
  if A.n_rows * A.n_cols = 1 then .ok (A.elem 0 0) else .error .notScalar

end DMat

/-! ## The source functions -/

/-- Sign-agreement indicator, `indicatorFunction` of the source. -/
def indicatorFunction (r signs : DMat) : Except ArmaError Int :=
  let r := r.t
  let indicator : Int := 1
  let n : Int := r.n_rows
  forInt 0 n (fun i indicator => do
    let s ← (← signs.row (toUword i)).as_scalar
    let x ← (← r.row (toUword i)).as_scalar
    if (s.mul x).ltZero then pure 0 else pure indicator) indicator

/-- Division `x / N` of a double by an `int` converted to double: the exact quotient
rounded to the nearest double, and the IEEE results of a division by zero. -/
def divByInt (x : ℚ) (N : Int) : DoubleVal :=
  if N = 0 then
    if x = 0 then .nan else if 0 < x then .posInf else .negInf
  else roundDouble (x / (N : ℚ))

/-- Mean of the row indicators, `expected_indicator_value` of the source.  The running
sum is a count of rows, an integer below `2 ^ 32`, on which double addition is exact; it
is kept as an exact number. -/
def expected_indicator_value (r signs : DMat) : Except ArmaError DoubleVal := do
  let N : Int := r.n_rows
  let exp_indicator_value : ℚ := 0
  let exp_indicator_value ← forInt 0 N (fun i acc => do
    let v ← indicatorFunction (← r.row (toUword i)) signs
    pure (acc + (v : ℚ))) exp_indicator_value
  pure (divByInt exp_indicator_value N)

/-- Loop state of `elimination_mat`. -/
structure ElimState where
  eli : Mat
  init : Mat
  oes : Int
  block : Int

/-- One pass through the body of the `while` loop of `elimination_mat`. -/
def elimBody (s : ElimState) : Except ArmaError ElimState := do
  let eli1 ←
    if s.eli.n_cols = 1 then
      s.init.cols 0 (toUword (s.block - 1))
    else do
      Mat.join_horiz s.eli (← s.init.cols 0 (toUword (s.block - 1)))
  let init1 ←
    if s.init.n_cols > 1 then
      s.init.cols (toUword s.block) (s.init.n_cols - 1)
    else pure s.init
  let eli2 ← Mat.join_horiz eli1 (Mat.zeros eli1.n_rows (toUword s.oes))
  pure ⟨eli2, init1, s.oes + 1, s.block - 1⟩

/-- The loop `while (eli.n_cols < n2) body`, with an iteration budget. -/
def elimLoop (n2 : Int) : Nat → ElimState → Except ArmaError ElimState
  | 0, _ => .error .outOfFuel
  | fuel + 1, s =>
    if s.eli.n_cols < toUword n2 then
      match elimBody s with
      | .error e => .error e
      | .ok s1 => elimLoop n2 fuel s1
    else .ok s

/-- Elimination matrix, `elimination_mat` of the source.  Every pass of the loop adds at
least one column, so `n2 + 1` passes are a sufficient budget. -/
def elimination_mat (n : Int) : Except ArmaError Mat := do
  let n1 : Int := Int.tdiv (n * (n + 1)) 2
  let n2 : Int := n * n
  let init := Mat.eye (toUword n1) (toUword n1)
  let oes : Int := 1
  let eli ← init.col 0
  let block : Int := n
  let s ← elimLoop n2 (toUword n2 + 1) ⟨eli, init, oes, block⟩
  s.eli.cols 0 (toUword ((s.eli.n_cols : Int) - n - 1))

/-- Commutation matrix, `commutation_mat` of the source. -/
def commutation_mat (n : Int) : Except ArmaError Mat :=
  let K := Mat.zeros (toUword (n * n)) (toUword (n * n))
  forInt 1 (n + 1) (fun i K =>
    forInt 1 (n + 1) (fun j K =>
      K.set (toUword (i + n * (j - 1) - 1)) (toUword (j + n * (i - 1) - 1)) 1) K) K

/-- Duplication matrix, `duplication_mat` of the source. -/
def duplication_mat (n : Int) : Except ArmaError Mat := do
  let n2 : Int := n * n
  let el ← elimination_mat n
  let co ← commutation_mat n
  let m ← Mat.add (Mat.eye (toUword n2) (toUword n2)) co
  let lhs ← Mat.mul m el.t
  let inner ← Mat.mul (← Mat.mul el m) el.t
  let dup ← Mat.mul lhs (← Mat.inv inner)
  pure dup

/-! ## Vectorisations used to state the properties -/

/-- Column vector of doubles with the given finite entries. -/
def colVec (l : List ℚ) : DMat := ⟨l.length, 1, fun i _ => .num (l.getD i 0)⟩

/-- Row vector of doubles with the given finite entries. -/
def rowVec (l : List ℚ) : DMat := ⟨1, l.length, fun _ j => .num (l.getD j 0)⟩

/-- Stacking of the columns of an `n × n` matrix: entry `i + n * j` is `A(i, j)`. -/
def vec (n : Nat) (A : Mat) : Mat := ⟨n * n, 1, fun q _ => A.elem (q % n) (q / n)⟩

/-- Positions of the lower triangle of an `n × n` matrix, column by column, each column
from its diagonal entry downward. -/
def vechIdx (n : Nat) : List (Nat × Nat) :=
  (List.range n).flatMap (fun j => (List.range' j (n - j)).map (fun i => (i, j)))

/-- Half-vectorisation: the entries at the positions `vechIdx n`, stacked. -/
def vech (n : Nat) (A : Mat) : Mat :=
  ⟨(vechIdx n).length, 1, fun p _ =>
    match (vechIdx n)[p]? with
    | some (i, j) => A.elem i j
    | none => 0⟩

/-- Symmetry of an `n × n` matrix. -/
def isSymm (n : Nat) (A : Mat) : Prop :=
  A.n_rows = n ∧ A.n_cols = n ∧ ∀ i, i < n → ∀ j, j < n → A.elem i j = A.elem j i

/-- Loop body of `indicatorFunction`, for the transposed `r`. -/
def indBody (signs rt : DMat) (indicator : Int) (k : Nat) : Except ArmaError Int := do
  let s ← (← signs.row (toUword (k : Int))).as_scalar
  let x ← (← rt.row (toUword (k : Int))).as_scalar
  if (s.mul x).ltZero then pure 0 else pure indicator

/-- Some index below `m` shows a strict sign disagreement. -/
def hasDisagreement (signs rt : DMat) (m : Nat) : Prop :=
  ∃ k, k < m ∧ ((signs.elem k 0).mul (rt.elem k 0)).ltZero = true

instance (signs rt : DMat) (m : Nat) : Decidable (hasDisagreement signs rt m) := by
  unfold hasDisagreement
  infer_instance

/-- Value of the indicator on row `i` of `R`, read off the entries. -/
def rowIndicator (R signs : DMat) (i : Nat) : Int :=
  if ∃ k, k < R.n_cols ∧ ((signs.elem k 0).mul (R.elem i k)).ltZero = true then 0 else 1

/-- Loop body of `expected_indicator_value`. -/
def expBody (r signs : DMat) (acc : ℚ) (k : Nat) : Except ArmaError ℚ := do
  let v ← indicatorFunction (← r.row (toUword (k : Int))) signs
  pure (acc + (v : ℚ))

/-- A 2×2 sample `[[1, 2], [-1, 3]]`. -/
def sampleR : DMat :=
  ⟨2, 2, fun i j =>
    if i = 0 then (if j = 0 then .num 1 else .num 2) else (if j = 0 then .num (-1) else .num 3)⟩

/-- A 3×1 sample `[[1], [-1], [-1]]`. -/
def sampleThird : DMat := (rowVec [1, -1, -1]).t

/-- Inner loop of `commutation_mat` for the outer index `i = a + 1`, size `n`. -/
def commInner (n : Nat) (a : Nat) (K : Mat) (b : Nat) : Except ArmaError Mat :=
  K.set (a + n * b) (b + n * a) 1

/-- Column holding the 1 of row `r` of the commutation matrix. -/
def commCol (n r : Nat) : Nat := r / n + n * (r % n)

/-- A 2×2 sample `[[1, 2], [3, 4]]`. -/
def sampleA : Mat :=
  ⟨2, 2, fun i j => if i = 0 then (if j = 0 then 1 else 2) else (if j = 0 then 3 else 4)⟩

/-- A 1×1 symmetric sample `[[5]]`. -/
def sampleOne : Mat := ⟨1, 1, fun _ _ => 5⟩

/-- Number of lower-triangle entries in the first `k` columns of an `n × n` matrix. -/
def vechOffset (n : Nat) : Nat → Nat
  | 0 => 0
  | k + 1 => vechOffset n k + (n - k)

/-- Triangular number `n (n + 1) / 2`. -/
def tri (n : Nat) : Nat := n * (n + 1) / 2

/-- Entry `(p, q)` of the matrix accumulated by the loop: column `q` lies in group
`q / (n+1)`, at position `q % (n+1)` of the group; the first `n - group` columns of a
group are unit columns, the others are zero. -/
def eliEntry (n p q : Nat) : ℚ :=
  if q % (n + 1) < n - q / (n + 1) ∧ p = vechOffset n (q / (n + 1)) + q % (n + 1) then 1 else 0

/-- The result of `A.cols(a, b)` when the bounds check passes. -/
def colsP (A : Mat) (a b : Nat) : Mat := ⟨A.n_rows, b - a + 1, fun i j => A.elem i (a + j)⟩

/-- The result of `join_horiz(A, B)` when the conformance check passes. -/
def joinP (A B : Mat) : Mat :=
  ⟨max A.n_rows B.n_rows, A.n_cols + B.n_cols,
    fun i j => if j < A.n_cols then A.elem i j else B.elem i (j - A.n_cols)⟩

/-- The matrix `eli` after the first statement of the loop body. -/
def elimMiddle (s : ElimState) (b : Nat) : Mat :=
  if s.eli.n_cols = 1 then colsP s.init 0 b else joinP s.eli (colsP s.init 0 b)

/-- Invariant of the loop of `elimination_mat` after `k` passes. -/
def ElimInv (n k : Nat) (s : ElimState) : Prop :=
  s.oes = (k : Int) + 1 ∧ s.block = (n : Int) - (k : Int) ∧
  s.eli.n_rows = tri n ∧ s.eli.n_cols = (if k = 0 then 1 else k * (n + 1)) ∧
  (∀ p q, q < k * (n + 1) → s.eli.elem p q = eliEntry n p q) ∧
  (k < n → s.init.n_rows = tri n ∧ s.init.n_cols = tri n - vechOffset n k ∧
    ∀ p q, s.init.elem p q = if p = q + vechOffset n k then 1 else 0)

/-- The lower-triangle positions of column `j`. -/
def vechColumn (n j : Nat) : List (Nat × Nat) :=
  (List.range' j (n - j)).map (fun i => (i, j))

/-- The lower-triangle positions of the first `k` columns. -/
def vechPrefix (n k : Nat) : List (Nat × Nat) := (List.range k).flatMap (vechColumn n)

/-- Lower-triangle position stored at index `p` of `vech`. -/
def vechPos (n p : Nat) : Nat × Nat := (vechIdx n).getD p (0, 0)

/-- Diagonal entry `p` of `L (I + K) Lᵗ`: 2 at a diagonal position, 1 elsewhere. -/
def vechDiagWeight (n p : Nat) : ℚ := if (vechPos n p).1 = (vechPos n p).2 then 2 else 1

/-- State of `elimination_mat` on entry to the loop. -/
def elimInit (n : Int) : Except ArmaError ElimState := do
  let n1 : Int := Int.tdiv (n * (n + 1)) 2
  let init := Mat.eye (toUword n1) (toUword n1)
  let eli ← init.col 0
  pure ⟨eli, init, 1, n⟩

/-- The entry `+1` or `-1` coded by a Boolean. -/
def signOf (b : Bool) : ℚ := if b then 1 else -1

/-- The sign column in `{-1, +1}^n` coded by `σ`. -/
def signsOf (n : Nat) (σ : Fin n → Bool) : DMat :=
  ⟨n, 1, fun i _ => if h : i < n then .num (signOf (σ ⟨i, h⟩)) else .num 0⟩

/-- Value of the indicator as a number, 0 when the call raises. -/
def orthantValue (r s : DMat) : Int :=
  match indicatorFunction r s with
  | .ok v => v
  | .error _ => 0

/-- The double is a zero. -/
def DoubleVal.isZero : DoubleVal → Bool
  | .num q => decide (q = 0)
  | _ => false

/-- The double is NaN. -/
def DoubleVal.isNaN : DoubleVal → Bool
  | .nan => true
  | _ => false

/-- The comparison `x > 0`; false on NaN. -/
def DoubleVal.gtZero : DoubleVal → Bool
  | .num q => decide (0 < q)
  | .posInf => true
  | _ => false

/-- No finite double lies strictly between zero and the least subnormal `2 ^ (-1074)`:
a finite value is zero or of magnitude at least `2 ^ (-1074)`. -/
def DoubleVal.aboveDenormMin : DoubleVal → Prop
  | .num q => q = 0 ∨ (2 : ℚ) ^ (-1074 : Int) ≤ |q|
  | _ => True

/-- The 1 × 1 matrix holding NaN. -/
def nanRow : DMat := ⟨1, 1, fun _ _ => .nan⟩

/-- The sign pattern of `r`: `+1` where the entry is positive, `-1` elsewhere. -/
def signPattern (n : Nat) (r : DMat) : Fin n → Bool := fun i => (r.elem 0 i).gtZero

/-! ## Rounding to double: signs and underflow -/

theorem two_zpow_pos (u : Int) : (0 : ℚ) < (2 : ℚ) ^ u := zpow_pos (by norm_num) u

theorem roundHalfEven_nonneg (m : ℚ) (hm : 0 ≤ m) : 0 ≤ roundHalfEven m := by
  have hf : 0 ≤ ⌊m⌋ := Int.floor_nonneg.mpr hm
  unfold roundHalfEven
  split_ifs <;> omega

theorem roundHalfEven_pos (m : ℚ) (hm : 1 / 2 < m) : 1 ≤ roundHalfEven m := by
  have hf : 0 ≤ ⌊m⌋ := Int.floor_nonneg.mpr (le_of_lt (lt_trans (by norm_num) hm))
  unfold roundHalfEven
  rcases Int.lt_or_le 0 ⌊m⌋ with h | h
  · split_ifs <;> omega
  · have h0 : ⌊m⌋ = 0 := by omega
    rw [h0]
    have hd : ¬ (m - ((0 : Int) : ℚ) < 1 / 2) := by
      simp only [Int.cast_zero, sub_zero]
      exact not_lt.mpr (le_of_lt hm)
    have hd2 : 1 / 2 < m - ((0 : Int) : ℚ) := by
      simp only [Int.cast_zero, sub_zero]
      exact hm
    rw [if_neg hd, if_pos hd2]
    decide

theorem roundHalfEven_small (m : ℚ) (h0 : 0 ≤ m) (hm : m ≤ 1 / 2) : roundHalfEven m = 0 := by
  have hf : ⌊m⌋ = 0 := Int.floor_eq_zero_iff.mpr ⟨h0, lt_of_le_of_lt hm (by norm_num)⟩
  unfold roundHalfEven
  rw [hf]
  simp only [Int.cast_zero, sub_zero]
  by_cases h : m < 1 / 2
  · rw [if_pos h]
  · rw [if_neg h, if_neg (not_lt.mpr hm)]
    rfl

theorem roundMagnitude_nonneg (a : ℚ) (ha : 0 ≤ a) : 0 ≤ roundMagnitude a := by
  unfold roundMagnitude
  apply mul_nonneg
  · exact_mod_cast roundHalfEven_nonneg _ (div_nonneg ha (le_of_lt (two_zpow_pos _)))
  · exact le_of_lt (two_zpow_pos _)

/-- A magnitude above half the least subnormal does not round to zero. -/
theorem roundMagnitude_pos (a : ℚ) (ha : (2 : ℚ) ^ (-1075 : Int) < a) : 0 < roundMagnitude a := by
  have hapos : 0 < a := lt_trans (two_zpow_pos _) ha
  have hkey : (2 : ℚ) ^ (ulpExponent a - 1) < a := by
    unfold ulpExponent
    rcases le_total (Int.log 2 a - 52) (-1074) with h | h
    · rw [max_eq_right h]
      exact ha
    · rw [max_eq_left h]
      have h1 : ((2 : ℕ) : ℚ) ^ Int.log 2 a ≤ a := Int.zpow_log_le_self (by norm_num) hapos
      rw [Nat.cast_ofNat] at h1
      have h2 : (2 : ℚ) ^ (Int.log 2 a - 52 - 1) < (2 : ℚ) ^ Int.log 2 a :=
        zpow_lt_zpow_right₀ (by norm_num) (by omega)
      exact lt_of_lt_of_le h2 h1
  have hhalf : 1 / 2 < a / (2 : ℚ) ^ ulpExponent a := by
    rw [lt_div_iff₀ (two_zpow_pos _)]
    have : (1 : ℚ) / 2 * 2 ^ ulpExponent a = 2 ^ (ulpExponent a - 1) := by
      rw [zpow_sub₀ (by norm_num : (2 : ℚ) ≠ 0), zpow_one]
      ring
    rw [this]
    exact hkey
  unfold roundMagnitude
  apply mul_pos
  · exact_mod_cast roundHalfEven_pos _ hhalf
  · exact two_zpow_pos _

/-- A magnitude of at most half the least subnormal rounds to zero (the tie goes to the
even neighbour, zero). -/
theorem roundMagnitude_underflow (a : ℚ) (h0 : 0 < a) (ha : a ≤ (2 : ℚ) ^ (-1075 : Int)) :
    roundMagnitude a = 0 := by
  have hlt : a < ((2 : ℕ) : ℚ) ^ (-1074 : Int) := by
    rw [Nat.cast_ofNat]
    exact lt_of_le_of_lt ha (zpow_lt_zpow_right₀ (by norm_num) (by decide))
  have hlog : Int.log 2 a < -1074 := (Int.lt_zpow_iff_log_lt (by norm_num) h0).mp hlt
  have hu : ulpExponent a = -1074 := by
    unfold ulpExponent
    exact max_eq_right (by omega)
  have hm : a / (2 : ℚ) ^ (-1074 : Int) ≤ 1 / 2 := by
    rw [div_le_iff₀ (two_zpow_pos _)]
    have : (1 : ℚ) / 2 * 2 ^ (-1074 : Int) = 2 ^ (-1075 : Int) := by
      have h : (-1075 : Int) = -1074 - 1 := by decide
      rw [h, zpow_sub₀ (by norm_num : (2 : ℚ) ≠ 0), zpow_one]
      ring
    rw [this]
    exact ha
  unfold roundMagnitude
  rw [hu, roundHalfEven_small _ (div_nonneg (le_of_lt h0) (le_of_lt (two_zpow_pos _))) hm]
  simp

theorem roundDouble_nonneg (p : ℚ) (hp : 0 ≤ p) : (roundDouble p).ltZero = false := by
  unfold roundDouble
  by_cases h0 : p = 0
  · rw [if_pos h0]
    simp [DoubleVal.ltZero]
  · have hpos : 0 < p := lt_of_le_of_ne hp (Ne.symm h0)
    rw [if_neg h0, if_pos hpos]
    split
    · simp only [DoubleVal.ltZero, decide_eq_false_iff_not, not_lt]
      exact roundMagnitude_nonneg p hp
    · rfl

theorem roundDouble_negative (p : ℚ) (hp : p < 0) (hbig : (2 : ℚ) ^ (-1075 : Int) < -p) :
    (roundDouble p).ltZero = true := by
  unfold roundDouble
  rw [if_neg (ne_of_lt hp), if_neg (not_lt.mpr (le_of_lt hp))]
  split
  · simp only [DoubleVal.ltZero, decide_eq_true_eq]
    have := roundMagnitude_pos (-p) hbig
    linarith
  · rfl

theorem roundDouble_underflow (p : ℚ) (hp : p < 0) (hsmall : -p ≤ (2 : ℚ) ^ (-1075 : Int)) :
    roundDouble p = .num 0 := by
  unfold roundDouble
  rw [if_neg (ne_of_lt hp), if_neg (not_lt.mpr (le_of_lt hp)),
    roundMagnitude_underflow (-p) (by linarith) hsmall]
  simp

/-- The rounded product of two finite doubles compares `< 0` exactly when the exact
product lies below minus half the least subnormal. -/
theorem mul_ltZero_iff (a b : ℚ) :
    ((DoubleVal.num a).mul (.num b)).ltZero = true ↔ a * b < -(2 : ℚ) ^ (-1075 : Int) := by
  show (roundDouble (a * b)).ltZero = true ↔ _
  constructor
  · intro h
    by_contra hcon
    rcases le_or_lt 0 (a * b) with h0 | h0
    · rw [roundDouble_nonneg _ h0] at h
      exact absurd h (by decide)
    · rw [roundDouble_underflow _ h0 (by linarith)] at h
      simp [DoubleVal.ltZero] at h
  · intro h
    have hneg : a * b < 0 := lt_trans h (by
      have := two_zpow_pos (-1075)
      linarith)
    exact roundDouble_negative _ hneg (by linarith)

theorem toUword_natCast (k : Nat) : toUword (k : Int) = k := by
  simp [toUword]

theorem toUword_of_nonneg {z : Int} (h : 0 ≤ z) : toUword z = z.toNat := by
  simp [toUword, h]

theorem forInt_zero {σ : Type} (m : Nat) (body : Int → σ → Except ArmaError σ) (s : σ) :
    forInt 0 (m : Int) body s = (List.range m).foldlM (fun acc (k : Nat) => body (k : Int) acc) s := by
  simp [forInt]

/-- A row view converts to a scalar exactly when the matrix has a single column. -/
theorem row_as_scalar_ok (A : DMat) (k : Nat) (h1 : k < A.n_rows) (h2 : A.n_cols = 1) :
    (A.row k >>= DMat.as_scalar) = .ok (A.elem k 0) := by
  simp [DMat.row, h1, DMat.as_scalar, h2, bind, Except.bind]

theorem row_as_scalar_inv (A : DMat) (k : Nat) (x : DoubleVal)
    (h : (A.row k >>= DMat.as_scalar) = .ok x) :
    k < A.n_rows ∧ A.n_cols = 1 ∧ x = A.elem k 0 := by
  unfold DMat.row at h
  by_cases h1 : k < A.n_rows
  · simp only [h1, if_true, bind, Except.bind, DMat.as_scalar, one_mul] at h
    by_cases h2 : A.n_cols = 1
    · simp [h2] at h
      exact ⟨h1, h2, h.symm⟩
    · simp [h2] at h
  · simp [h1, bind, Except.bind] at h

theorem indicatorFunction_eq (r signs : DMat) :
    indicatorFunction r signs = (List.range r.n_cols).foldlM (indBody signs r.t) 1 := by
  unfold indicatorFunction
  simp only [forInt_zero, DMat.t]
  rfl

theorem indBody_ok (signs rt : DMat) (k : Nat) (acc : Int)
    (hs1 : k < signs.n_rows) (hs2 : signs.n_cols = 1)
    (hr1 : k < rt.n_rows) (hr2 : rt.n_cols = 1) :
    indBody signs rt acc k = .ok (if ((signs.elem k 0).mul (rt.elem k 0)).ltZero = true then 0 else acc) := by
  unfold indBody
  simp only [toUword_natCast, bind, Except.bind, DMat.row, DMat.as_scalar, hs1, hs2, hr1, hr2,
    if_true, mul_one]
  split <;> rfl

theorem indBody_inv (signs rt : DMat) (k : Nat) (acc v : Int)
    (h : indBody signs rt acc k = .ok v) :
    k < signs.n_rows ∧ signs.n_cols = 1 ∧ k < rt.n_rows ∧ rt.n_cols = 1 := by
  unfold indBody at h
  simp only [toUword_natCast, bind, Except.bind, DMat.row, DMat.as_scalar, one_mul] at h
  by_cases hs1 : k < signs.n_rows
  · by_cases hs2 : signs.n_cols = 1
    · by_cases hr1 : k < rt.n_rows
      · by_cases hr2 : rt.n_cols = 1
        · exact ⟨hs1, hs2, hr1, hr2⟩
        · simp [hs1, hs2, hr1, hr2] at h
      · simp [hs1, hs2, hr1] at h
    · simp [hs1, hs2] at h
  · simp [hs1] at h

theorem hasDisagreement_succ (signs rt : DMat) (m : Nat) :
    hasDisagreement signs rt (m + 1) ↔
      hasDisagreement signs rt m ∨ ((signs.elem m 0).mul (rt.elem m 0)).ltZero = true := by
  unfold hasDisagreement
  constructor
  · rintro ⟨k, hk, hneg⟩
    rcases Nat.lt_succ_iff_lt_or_eq.mp hk with h | h
    · exact Or.inl ⟨k, h, hneg⟩
    · subst h; exact Or.inr hneg
  · rintro (⟨k, hk, hneg⟩ | hneg)
    · exact ⟨k, Nat.lt_succ_of_lt hk, hneg⟩
    · exact ⟨m, Nat.lt_succ_self m, hneg⟩

theorem indFold_ok (signs rt : DMat) (hs2 : signs.n_cols = 1) (hr2 : rt.n_cols = 1) :
    ∀ (m : Nat) (acc : Int), m ≤ signs.n_rows → m ≤ rt.n_rows →
      (List.range m).foldlM (indBody signs rt) acc =
        .ok (if hasDisagreement signs rt m then 0 else acc) := by
  intro m
  induction m with
  | zero =>
    intro acc _ _
    simp [hasDisagreement, pure, Except.pure]
  | succ m ih =>
    intro acc h1 h2
    rw [List.range_succ, List.foldlM_append, ih acc (Nat.le_of_succ_le h1) (Nat.le_of_succ_le h2)]
    simp only [List.foldlM_cons, List.foldlM_nil, bind, Except.bind, pure, Except.pure]
    rw [indBody_ok signs rt m _ h1 hs2 h2 hr2]
    simp only [hasDisagreement_succ]
    by_cases ha : hasDisagreement signs rt m <;> by_cases hb : ((signs.elem m 0).mul (rt.elem m 0)).ltZero = true <;>
      simp [ha, hb]

theorem indFold_inv (signs rt : DMat) :
    ∀ (m : Nat) (acc v : Int), (List.range m).foldlM (indBody signs rt) acc = .ok v →
      ∀ k, k < m → k < signs.n_rows ∧ signs.n_cols = 1 ∧ k < rt.n_rows ∧ rt.n_cols = 1 := by
  intro m
  induction m with
  | zero => intro _ _ _ k hk; omega
  | succ m ih =>
    intro acc v h k hk
    rw [List.range_succ, List.foldlM_append] at h
    cases hpre : (List.range m).foldlM (indBody signs rt) acc with
    | error e => rw [hpre] at h; simp [bind, Except.bind] at h
    | ok w =>
      rw [hpre] at h
      simp only [List.foldlM_cons, List.foldlM_nil, bind, Except.bind, pure, Except.pure] at h
      rcases Nat.lt_succ_iff_lt_or_eq.mp hk with hlt | heq
      · exact ih acc w hpre k hlt
      · subst heq
        cases hb : indBody signs rt w k with
        | error e => rw [hb] at h; simp at h
        | ok u => exact indBody_inv signs rt k w u hb

/-- With `r` a row vector and `signs` a column at least as long, `indicatorFunction`
returns, and returns 0 exactly when some index shows a strict sign disagreement. -/
theorem indicatorFunction_ok (r signs : DMat) (hr : r.n_rows = 1) (hs : signs.n_cols = 1)
    (hlen : r.n_cols ≤ signs.n_rows) :
    indicatorFunction r signs =
      .ok (if ∃ k, k < r.n_cols ∧ ((signs.elem k 0).mul (r.elem 0 k)).ltZero = true then 0 else 1) := by
  rw [indicatorFunction_eq, indFold_ok signs r.t hs hr r.n_cols 1 hlen (le_refl _)]
  by_cases hd : hasDisagreement signs r.t r.n_cols
  · rw [if_pos hd, if_pos (show ∃ k, k < r.n_cols ∧ ((signs.elem k 0).mul (r.elem 0 k)).ltZero = true from hd)]
  · rw [if_neg hd, if_neg (show ¬ ∃ k, k < r.n_cols ∧ ((signs.elem k 0).mul (r.elem 0 k)).ltZero = true from hd)]

/-- Whenever `indicatorFunction` returns and `r` has a column, `r` is a single row and
`signs` a single column with at least as many entries. -/
theorem indicatorFunction_inv (r signs : DMat) (v : Int) (h : indicatorFunction r signs = .ok v)
    (hpos : 0 < r.n_cols) :
    r.n_rows = 1 ∧ signs.n_cols = 1 ∧ r.n_cols ≤ signs.n_rows := by
  rw [indicatorFunction_eq] at h
  have key := indFold_inv signs r.t r.n_cols 1 v h
  have h0 := key 0 hpos
  have hl := key (r.n_cols - 1) (by omega)
  refine ⟨h0.2.2.2, h0.2.1, ?_⟩
  have := hl.1
  omega

/-! ## C1: the value of `indicatorFunction` -/

theorem tiny_lt_one : (2 : ℚ) ^ (-1075 : Int) < 1 :=
  zpow_lt_one_of_neg₀ (by norm_num) (by norm_num)

theorem mul_ltZero_of_le_neg_one (a b : ℚ) (h : a * b ≤ -1) :
    ((DoubleVal.num a).mul (.num b)).ltZero = true := by
  rw [mul_ltZero_iff]
  have := tiny_lt_one
  linarith

theorem mul_ltZero_of_nonneg (a b : ℚ) (h : 0 ≤ a * b) :
    ((DoubleVal.num a).mul (.num b)).ltZero = false := by
  cases hc : ((DoubleVal.num a).mul (.num b)).ltZero with
  | false => rfl
  | true =>
    rw [mul_ltZero_iff] at hc
    have := two_zpow_pos (-1075)
    linarith

/-- The double product of two tiny entries of opposite sign underflows to zero, which is
not `< 0`: with `r = [-2^-600]` and `signs = [2^-600]` the call returns 1. -/
theorem example_underflow :
    indicatorFunction (rowVec [-(2 : ℚ) ^ (-600 : Int)]) (colVec [(2 : ℚ) ^ (-600 : Int)])
      = .ok 1 := by
  rw [indicatorFunction_ok _ _ rfl rfl (by simp [rowVec, colVec])]
  rw [if_neg]
  rintro ⟨k, hk, hneg⟩
  have hk1 : k < 1 := by simpa [rowVec] using hk
  have hk0 : k = 0 := by omega
  subst hk0
  simp only [rowVec, colVec, List.getD_cons_zero] at hneg
  rw [mul_ltZero_iff] at hneg
  have h1 : (2 : ℚ) ^ (-600 : Int) * -(2 : ℚ) ^ (-600 : Int) = -(2 : ℚ) ^ (-1200 : Int) := by
    rw [mul_neg, ← zpow_add₀ (by norm_num : (2 : ℚ) ≠ 0)]
    norm_num
  rw [h1, neg_lt_neg_iff] at hneg
  have h2 : (2 : ℚ) ^ (-1200 : Int) < (2 : ℚ) ^ (-1075 : Int) :=
    zpow_lt_zpow_right₀ (by norm_num) (by norm_num)
  exact absurd hneg (not_lt.mpr h2.le)

/-- C9 fails as stated: with `r = [1, 2]` and `signs = [1, 1]` both passed as 1×2
row-vectors, `signs.row(0)` has two entries and `as_scalar` raises. -/
theorem indicatorFunction_row_signs_fails :
    (rowVec [1, 2]).n_rows = 1 ∧ (rowVec [1, 2]).n_cols = 2 ∧
    (rowVec [1, 1]).n_rows = 1 ∧ (rowVec [1, 1]).n_cols = 2 ∧
    indicatorFunction (rowVec [1, 2]) (rowVec [1, 1]) = .error .notScalar := by
  refine ⟨rfl, rfl, rfl, rfl, ?_⟩
  rfl

/-- C9, amended: for every `n ≥ 1`, with `r` a 1×n row-vector and `signs` an n×1
column-vector, `indicatorFunction` returns without error a value in {0, 1}. -/
theorem indicatorFunction_returns_zero_or_one (n : Nat) (r signs : DMat) (_hn : 1 ≤ n)
    (hr1 : r.n_rows = 1) (hr2 : r.n_cols = n) (hs1 : signs.n_rows = n) (hs2 : signs.n_cols = 1) :
    ∃ v : Int, indicatorFunction r signs = .ok v ∧ (v = 0 ∨ v = 1) := by
  rw [indicatorFunction_ok r signs hr1 hs2 (by omega)]
  by_cases h : ∃ k, k < r.n_cols ∧ ((signs.elem k 0).mul (r.elem 0 k)).ltZero = true
  · exact ⟨0, by rw [if_pos h], Or.inl rfl⟩
  · exact ⟨1, by rw [if_neg h], Or.inr rfl⟩

/-- Instance of the amended C9 at `r = [1, 2, 3]`, `signs = [1, 1, 1]ᵗ`. -/
theorem indicatorFunction_returns_zero_or_one_witness :
    ∃ v : Int, indicatorFunction (rowVec [1, 2, 3]) (colVec [1, 1, 1]) = .ok v ∧
      (v = 0 ∨ v = 1) :=
  indicatorFunction_returns_zero_or_one 3 (rowVec [1, 2, 3]) (colVec [1, 1, 1])
    (by decide) rfl rfl rfl rfl

/-- C10 fails as stated: `r = [1, 2]` has two entries, the column `signs = [1, 1, -1]ᵗ`
has three, and the call returns 1; the third entry of `signs` is never read. -/
theorem indicatorFunction_longer_signs_accepted :
    (rowVec [1, 2]).n_rows = 1 ∧ (rowVec [1, 2]).n_cols = 2 ∧
    (colVec [1, 1, -1]).n_rows = 3 ∧ (colVec [1, 1, -1]).n_cols = 1 ∧
    indicatorFunction (rowVec [1, 2]) (colVec [1, 1, -1]) = .ok 1 := by
  refine ⟨rfl, rfl, rfl, rfl, ?_⟩
  rw [indicatorFunction_ok _ _ rfl rfl (by simp [rowVec, colVec])]
  rw [if_neg]
  rintro ⟨k, hk, hneg⟩
  have hk2 : k < 2 := by simpa [rowVec] using hk
  have hfalse : (((colVec [1, 1, -1]).elem k 0).mul ((rowVec [1, 2]).elem 0 k)).ltZero = false := by
    interval_cases k <;> simp only [rowVec, colVec] <;>
      exact mul_ltZero_of_nonneg _ _ (by norm_num)
  rw [hfalse] at hneg
  exact Bool.noConfusion hneg

/-- C10, amended: for a non-empty row-vector `r`, `indicatorFunction` reports an error
exactly when `signs` is not a single column or has fewer entries than `r`; a column
`signs` with at least as many entries as `r` is accepted, and the result depends only on
its first `r.n_cols` entries. -/
theorem indicatorFunction_length_check (r signs : DMat) (hr1 : r.n_rows = 1)
    (hpos : 0 < r.n_cols) :
    ((∃ e, indicatorFunction r signs = .error e) ↔
        (signs.n_cols ≠ 1 ∨ signs.n_rows < r.n_cols)) ∧
    (signs.n_cols = 1 → r.n_cols ≤ signs.n_rows →
      ∀ signs2 : DMat, signs2.n_cols = 1 → r.n_cols ≤ signs2.n_rows →
        (∀ k, k < r.n_cols → signs2.elem k 0 = signs.elem k 0) →
        indicatorFunction r signs2 = indicatorFunction r signs) := by
  constructor
  · constructor
    · rintro ⟨e, he⟩
      by_contra hcon
      push_neg at hcon
      rw [indicatorFunction_ok r signs hr1 hcon.1 hcon.2] at he
      exact Except.noConfusion he
    · intro hbad
      cases hres : indicatorFunction r signs with
      | error e => exact ⟨e, rfl⟩
      | ok v =>
        obtain ⟨_, h2, h3⟩ := indicatorFunction_inv r signs v hres hpos
        rcases hbad with hb | hb
        · exact absurd h2 hb
        · omega
  · intro hs hlen signs2 hs2 hlen2 hagree
    rw [indicatorFunction_ok r signs hr1 hs hlen, indicatorFunction_ok r signs2 hr1 hs2 hlen2]
    have hiff : (∃ k, k < r.n_cols ∧ ((signs2.elem k 0).mul (r.elem 0 k)).ltZero = true) ↔
        (∃ k, k < r.n_cols ∧ ((signs.elem k 0).mul (r.elem 0 k)).ltZero = true) := by
      constructor
      · rintro ⟨k, hk, hneg⟩
        exact ⟨k, hk, by rw [← hagree k hk]; exact hneg⟩
      · rintro ⟨k, hk, hneg⟩
        exact ⟨k, hk, by rw [hagree k hk]; exact hneg⟩
    by_cases h : ∃ k, k < r.n_cols ∧ ((signs.elem k 0).mul (r.elem 0 k)).ltZero = true
    · rw [if_pos h, if_pos (hiff.mpr h)]
    · rw [if_neg h, if_neg (fun h2 => h (hiff.mp h2))]

/-- Instance of the amended C10 at `r = [1, 2]`. -/
theorem indicatorFunction_length_check_witness :
    ((∃ e, indicatorFunction (rowVec [1, 2]) (colVec [1]) = .error e) ↔
        ((colVec [1]).n_cols ≠ 1 ∨ (colVec [1]).n_rows < (rowVec [1, 2]).n_cols)) ∧
    ((colVec [1]).n_cols = 1 → (rowVec [1, 2]).n_cols ≤ (colVec [1]).n_rows →
      ∀ signs2 : DMat, signs2.n_cols = 1 → (rowVec [1, 2]).n_cols ≤ signs2.n_rows →
        (∀ k, k < (rowVec [1, 2]).n_cols → signs2.elem k 0 = (colVec [1]).elem k 0) →
        indicatorFunction (rowVec [1, 2]) signs2 =
          indicatorFunction (rowVec [1, 2]) (colVec [1])) :=
  indicatorFunction_length_check (rowVec [1, 2]) (colVec [1]) rfl (by decide)

/-! ## C5: `expected_indicator_value` is the rounded mean of the row indicators -/

theorem rowIndicator_spec (R signs : DMat) (i : Nat) (hi : i < R.n_rows)
    (hs1 : signs.n_cols = 1) (hs2 : R.n_cols ≤ signs.n_rows) :
    ∃ ρ, R.row i = .ok ρ ∧ indicatorFunction ρ signs = .ok (rowIndicator R signs i) := by
  refine ⟨⟨1, R.n_cols, fun _ j => R.elem i j⟩, by simp [DMat.row, hi], ?_⟩
  rw [indicatorFunction_ok ⟨1, R.n_cols, fun _ j => R.elem i j⟩ signs rfl hs1 hs2]
  rfl

theorem expected_indicator_value_eq (r signs : DMat) :
    expected_indicator_value r signs =
      (do
        let total ← (List.range r.n_rows).foldlM (expBody r signs) 0
        pure (divByInt total (r.n_rows : Int))) := by
  unfold expected_indicator_value
  simp only [forInt_zero]
  rfl

theorem expFold_ok (R signs : DMat) (f : Nat → Int)
    (hf : ∀ i, i < R.n_rows → ∃ ρ, R.row i = .ok ρ ∧ indicatorFunction ρ signs = .ok (f i)) :
    ∀ (m : Nat) (acc : ℚ), m ≤ R.n_rows →
      (List.range m).foldlM (expBody R signs) acc =
        .ok (acc + ∑ i in Finset.range m, (f i : ℚ)) := by
  intro m
  induction m with
  | zero => intro acc _; simp [pure, Except.pure]
  | succ m ih =>
    intro acc hm
    rw [List.range_succ, List.foldlM_append, ih acc (Nat.le_of_succ_le hm)]
    obtain ⟨ρ, hρ, hind⟩ := hf m (by omega)
    simp only [List.foldlM_cons, List.foldlM_nil, bind, Except.bind, pure, Except.pure, expBody,
      toUword_natCast, hρ, hind, Finset.sum_range_succ]
    rw [add_assoc]

/-- With at least one row, the value returned is the sum of the row indicators divided by
the number of rows, rounded to the nearest double. -/
theorem expected_indicator_value_ok (R signs : DMat) (hN : 1 ≤ R.n_rows) (f : Nat → Int)
    (hf : ∀ i, i < R.n_rows → ∃ ρ, R.row i = .ok ρ ∧ indicatorFunction ρ signs = .ok (f i)) :
    expected_indicator_value R signs =
      .ok (roundDouble ((∑ i in Finset.range R.n_rows, (f i : ℚ)) / (R.n_rows : ℚ))) := by
  rw [expected_indicator_value_eq, expFold_ok R signs f hf R.n_rows 0 (le_refl _)]
  have hne : ¬ ((R.n_rows : Int) = 0) := by
    intro h
    have : R.n_rows = 0 := by exact_mod_cast h
    omega
  simp only [bind, Except.bind, pure, Except.pure, divByInt, if_neg hne, zero_add, Int.cast_natCast]

/-- The quotient 1/2 is a double: rounding leaves it unchanged. -/
theorem roundDouble_half : roundDouble (1 / 2) = .num (1 / 2) := by
  have hlog : Int.log 2 (1 / 2 : ℚ) = -1 := by
    have h := Int.log_zpow (R := ℚ) (b := 2) (by norm_num) (-1)
    rw [← h]
    congr 1
    norm_num
  have hu : ulpExponent (1 / 2) = -53 := by
    unfold ulpExponent
    rw [hlog]
    norm_num
  have hq : (1 / 2 : ℚ) / (2 : ℚ) ^ (-53 : Int) = ((2 ^ 52 : Int) : ℚ) := by
    rw [zpow_neg, div_inv_eq_mul]
    push_cast
    norm_num
  have hr : roundHalfEven (((2 ^ 52 : Int) : ℚ)) = 2 ^ 52 := by
    unfold roundHalfEven
    rw [Int.floor_intCast]
    norm_num
  have hm : roundMagnitude (1 / 2) = 1 / 2 := by
    unfold roundMagnitude
    rw [hu, hq, hr, zpow_neg]
    push_cast
    norm_num
  unfold roundDouble
  rw [if_neg (by norm_num), if_pos (by norm_num), hm, if_pos]
  calc (1 / 2 : ℚ) < 1 := by norm_num
    _ ≤ (2 : ℚ) ^ (1024 : ℕ) := one_le_pow₀ (by norm_num)

/-- On the sample matrix with `signs = [1, 1]ᵗ` the row indicators are 1 and 0, and the
value returned is 1/2. -/
theorem sampleR_mean :
    expected_indicator_value sampleR (colVec [1, 1]) = .ok (.num (1 / 2)) := by
  have hrow : ∀ i, i < sampleR.n_rows → ∃ ρ, sampleR.row i = .ok ρ ∧
      indicatorFunction ρ (colVec [1, 1]) = .ok (rowIndicator sampleR (colVec [1, 1]) i) :=
    fun i hi => rowIndicator_spec sampleR (colVec [1, 1]) i hi rfl (le_refl _)
  have h0 : rowIndicator sampleR (colVec [1, 1]) 0 = 1 := by
    unfold rowIndicator
    rw [if_neg]
    rintro ⟨k, hk, hneg⟩
    have hk2 : k < 2 := hk
    have hfalse : (((colVec [1, 1]).elem k 0).mul (sampleR.elem 0 k)).ltZero = false := by
      interval_cases k <;> simp only [sampleR, colVec] <;>
        exact mul_ltZero_of_nonneg _ _ (by norm_num)
    rw [hfalse] at hneg
    exact Bool.noConfusion hneg
  have h1 : rowIndicator sampleR (colVec [1, 1]) 1 = 0 := by
    unfold rowIndicator
    rw [if_pos]
    refine ⟨0, by decide, ?_⟩
    simp only [sampleR, colVec]
    exact mul_ltZero_of_le_neg_one _ _ (by norm_num)
  rw [expected_indicator_value_ok sampleR (colVec [1, 1]) (by decide) _ hrow]
  have hN : sampleR.n_rows = 2 := rfl
  rw [hN, Finset.sum_range_succ, Finset.sum_range_one, h0, h1, ← roundDouble_half]
  norm_num

/-- The quotient 1/3 is not a double: it is rounded to `6004799503160661 / 2 ^ 54`. -/
theorem roundDouble_third :
    roundDouble (1 / 3) = .num (6004799503160661 / 18014398509481984) := by
  have hlog : Int.log 2 (1 / 3 : ℚ) = -2 := by
    rw [Int.log_of_right_le_one 2 (by norm_num : (1 / 3 : ℚ) ≤ 1)]
    have hc : ⌈(1 / 3 : ℚ)⁻¹⌉₊ = 3 := by
      rw [one_div, inv_inv]
      exact Nat.ceil_natCast 3
    rw [hc]
    have h3 : Nat.clog 2 3 = 2 := by
      rw [Nat.clog_of_two_le (by norm_num) (by norm_num)]
      norm_num
      rw [Nat.clog_of_two_le (by norm_num) (by norm_num)]
      norm_num
    rw [h3]
    rfl
  have hu : ulpExponent (1 / 3) = -54 := by
    unfold ulpExponent
    rw [hlog]
    norm_num
  have hfl : ⌊(1 / 3 : ℚ) / (2 : ℚ) ^ (-54 : Int)⌋ = 6004799503160661 := by
    rw [Int.floor_eq_iff, zpow_neg, div_inv_eq_mul]
    norm_num
  have hr : roundHalfEven ((1 / 3 : ℚ) / (2 : ℚ) ^ (-54 : Int)) = 6004799503160661 := by
    unfold roundHalfEven
    rw [hfl, if_pos]
    rw [zpow_neg, div_inv_eq_mul]
    norm_num
  have hm : roundMagnitude (1 / 3) = 6004799503160661 / 18014398509481984 := by
    unfold roundMagnitude
    rw [hu, hr, zpow_neg]
    norm_num
  unfold roundDouble
  rw [if_neg (by norm_num), if_pos (by norm_num), hm, if_pos]
  calc (6004799503160661 / 18014398509481984 : ℚ) < 1 := by norm_num
    _ ≤ (2 : ℚ) ^ (1024 : ℕ) := one_le_pow₀ (by norm_num)

/-- On the 3×1 sample with `signs = [1]` the row indicators are 1, 0, 0 and the value
returned is the double nearest to 1/3. -/
theorem sampleThird_mean :
    expected_indicator_value sampleThird (colVec [1]) =
      .ok (.num (6004799503160661 / 18014398509481984)) := by
  have hrow : ∀ i, i < sampleThird.n_rows → ∃ ρ, sampleThird.row i = .ok ρ ∧
      indicatorFunction ρ (colVec [1]) = .ok (rowIndicator sampleThird (colVec [1]) i) :=
    fun i hi => rowIndicator_spec sampleThird (colVec [1]) i hi rfl (le_refl _)
  have h0 : rowIndicator sampleThird (colVec [1]) 0 = 1 := by
    unfold rowIndicator
    rw [if_neg]
    rintro ⟨k, hk, hneg⟩
    have hk1 : k < 1 := hk
    have hfalse : (((colVec [1]).elem k 0).mul (sampleThird.elem 0 k)).ltZero = false := by
      interval_cases k
      simp only [sampleThird, DMat.t, rowVec, colVec]
      exact mul_ltZero_of_nonneg _ _ (by norm_num)
    rw [hfalse] at hneg
    exact Bool.noConfusion hneg
  have h1 : rowIndicator sampleThird (colVec [1]) 1 = 0 := by
    unfold rowIndicator
    rw [if_pos]
    refine ⟨0, by decide, ?_⟩
    simp only [sampleThird, DMat.t, rowVec, colVec]
    exact mul_ltZero_of_le_neg_one _ _ (by norm_num)
  have h2 : rowIndicator sampleThird (colVec [1]) 2 = 0 := by
    unfold rowIndicator
    rw [if_pos]
    refine ⟨0, by decide, ?_⟩
    simp only [sampleThird, DMat.t, rowVec, colVec]
    exact mul_ltZero_of_le_neg_one _ _ (by norm_num)
  rw [expected_indicator_value_ok sampleThird (colVec [1]) (by decide) _ hrow]
  have hN : sampleThird.n_rows = 3 := rfl
  rw [hN, Finset.sum_range_succ, Finset.sum_range_succ, Finset.sum_range_one, h0, h1, h2,
    ← roundDouble_third]
  norm_num

theorem comm_index (n a b : Nat) :
    toUword ((1 + (a : Int)) + (n : Int) * ((1 + (b : Int)) - 1) - 1) = a + n * b := by
  have h : (1 + (a : Int)) + (n : Int) * ((1 + (b : Int)) - 1) - 1 = ((a + n * b : Nat) : Int) := by
    push_cast; ring
  rw [h, toUword_natCast]

theorem commutation_mat_eq (n : Nat) :
    commutation_mat (n : Int) =
      (List.range n).foldlM
        (fun K a => (List.range n).foldlM (commInner n a) K) (Mat.zeros (n * n) (n * n)) := by
  unfold commutation_mat forInt
  have hcount : ((n : Int) + 1 - 1).toNat = n := by simp
  have hsz : toUword ((n : Int) * (n : Int)) = n * n := by
    rw [← Nat.cast_mul, toUword_natCast]
  simp only [hcount, hsz, comm_index]
  rfl

theorem mul_index_lt (n a b : Nat) (ha : a < n) (hb : b < n) : a + n * b < n * n := by
  calc a + n * b < n + n * b := by omega
    _ = n * (b + 1) := by ring
    _ ≤ n * n := Nat.mul_le_mul_left n hb

theorem commInner_fold (n a : Nat) (ha : a < n) :
    ∀ (B : Nat) (K : Mat), B ≤ n → K.n_rows = n * n → K.n_cols = n * n →
      ∃ K1, (List.range B).foldlM (commInner n a) K = .ok K1 ∧
        K1.n_rows = n * n ∧ K1.n_cols = n * n ∧
        (∀ r c, (∃ b, b < B ∧ r = a + n * b ∧ c = b + n * a) → K1.elem r c = 1) ∧
        (∀ r c, (¬ ∃ b, b < B ∧ r = a + n * b ∧ c = b + n * a) → K1.elem r c = K.elem r c) := by
  intro B
  induction B with
  | zero =>
    intro K _ hr hc
    refine ⟨K, by simp [pure, Except.pure], hr, hc, ?_, fun _ _ _ => rfl⟩
    rintro r c ⟨b, hb, _⟩
    omega
  | succ B ih =>
    intro K hB hr hc
    obtain ⟨K1, hfold, hr1, hc1, hone, hkeep⟩ := ih K (Nat.le_of_succ_le hB) hr hc
    have hrow : a + n * B < K1.n_rows := by rw [hr1]; exact mul_index_lt n a B ha (by omega)
    have hcol : B + n * a < K1.n_cols := by
      rw [hc1]; exact mul_index_lt n B a (by omega) ha
    refine ⟨⟨K1.n_rows, K1.n_cols,
      fun x y => if x = a + n * B ∧ y = B + n * a then 1 else K1.elem x y⟩, ?_, hr1, hc1, ?_, ?_⟩
    · rw [List.range_succ, List.foldlM_append, hfold]
      simp [bind, Except.bind, pure, Except.pure, commInner, Mat.set, hrow, hcol]
    · rintro r c ⟨b, hb, hrb, hcb⟩
      by_cases hlast : r = a + n * B ∧ c = B + n * a
      · simp [hlast]
      · simp only [hlast, if_false]
        apply hone
        refine ⟨b, ?_, hrb, hcb⟩
        rcases Nat.lt_succ_iff_lt_or_eq.mp hb with h | h
        · exact h
        · subst h; exact absurd ⟨hrb, hcb⟩ hlast
    · intro r c hnot
      have hlast : ¬ (r = a + n * B ∧ c = B + n * a) := by
        rintro ⟨h1, h2⟩
        exact hnot ⟨B, Nat.lt_succ_self B, h1, h2⟩
      simp only [hlast, if_false]
      apply hkeep
      rintro ⟨b, hb, h1, h2⟩
      exact hnot ⟨b, Nat.lt_succ_of_lt hb, h1, h2⟩

theorem commOuter_fold (n : Nat) :
    ∀ (A : Nat) (K : Mat), A ≤ n → K.n_rows = n * n → K.n_cols = n * n →
      ∃ K1, (List.range A).foldlM (fun K a => (List.range n).foldlM (commInner n a) K) K
          = .ok K1 ∧
        K1.n_rows = n * n ∧ K1.n_cols = n * n ∧
        (∀ r c, (∃ a b, a < A ∧ b < n ∧ r = a + n * b ∧ c = b + n * a) → K1.elem r c = 1) ∧
        (∀ r c, (¬ ∃ a b, a < A ∧ b < n ∧ r = a + n * b ∧ c = b + n * a) →
          K1.elem r c = K.elem r c) := by
  intro A
  induction A with
  | zero =>
    intro K _ hr hc
    refine ⟨K, by simp [pure, Except.pure], hr, hc, ?_, fun _ _ _ => rfl⟩
    rintro r c ⟨a, b, ha, _⟩
    omega
  | succ A ih =>
    intro K hA hr hc
    obtain ⟨K1, hfold, hr1, hc1, hone, hkeep⟩ := ih K (Nat.le_of_succ_le hA) hr hc
    obtain ⟨K2, hfold2, hr2, hc2, hone2, hkeep2⟩ :=
      commInner_fold n A (by omega) n K1 (le_refl _) hr1 hc1
    refine ⟨K2, ?_, hr2, hc2, ?_, ?_⟩
    · rw [List.range_succ, List.foldlM_append, hfold]
      simp [bind, Except.bind, pure, Except.pure, hfold2]
    · rintro r c ⟨a, b, ha, hb, hrb, hcb⟩
      by_cases hin : ∃ b, b < n ∧ r = A + n * b ∧ c = b + n * A
      · exact hone2 r c hin
      · rw [hkeep2 r c hin]
        apply hone
        refine ⟨a, b, ?_, hb, hrb, hcb⟩
        rcases Nat.lt_succ_iff_lt_or_eq.mp ha with h | h
        · exact h
        · subst h; exact absurd ⟨b, hb, hrb, hcb⟩ hin
    · intro r c hnot
      have hin : ¬ ∃ b, b < n ∧ r = A + n * b ∧ c = b + n * A := by
        rintro ⟨b, hb, h1, h2⟩
        exact hnot ⟨A, b, Nat.lt_succ_self A, hb, h1, h2⟩
      rw [hkeep2 r c hin]
      apply hkeep
      rintro ⟨a, b, ha, hb, h1, h2⟩
      exact hnot ⟨a, b, Nat.lt_succ_of_lt ha, hb, h1, h2⟩

theorem commCol_lt (n r : Nat) (hr : r < n * n) : commCol n r < n * n := by
  have hn : 0 < n := by
    rcases Nat.eq_zero_or_pos n with h | h
    · subst h; simp at hr
    · exact h
  exact mul_index_lt n (r / n) (r % n) (Nat.div_lt_of_lt_mul hr) (Nat.mod_lt r hn)

theorem comm_position_iff (n r c : Nat) (hr : r < n * n) :
    (∃ a b, a < n ∧ b < n ∧ r = a + n * b ∧ c = b + n * a) ↔ c = commCol n r := by
  have hn : 0 < n := by
    rcases Nat.eq_zero_or_pos n with h | h
    · subst h; simp at hr
    · exact h
  constructor
  · rintro ⟨a, b, ha, hb, h1, h2⟩
    have hmod : r % n = a := by rw [h1, Nat.add_mul_mod_self_left, Nat.mod_eq_of_lt ha]
    have hdiv : r / n = b := by
      rw [h1, Nat.add_mul_div_left _ _ hn, Nat.div_eq_of_lt ha, Nat.zero_add]
    rw [h2, commCol, hmod, hdiv]
  · intro hc
    refine ⟨r % n, r / n, Nat.mod_lt r hn, Nat.div_lt_of_lt_mul hr, (Nat.mod_add_div r n).symm, hc⟩

/-- For `n ≥ 1`, `commutation_mat(n)` returns an n² × n² matrix whose row `r` holds a
single 1, in column `commCol n r`, and zeros elsewhere. -/
theorem commutation_mat_spec (n : Nat) :
    ∃ K, commutation_mat (n : Int) = .ok K ∧ K.n_rows = n * n ∧ K.n_cols = n * n ∧
      ∀ r c, r < n * n → K.elem r c = if c = commCol n r then 1 else 0 := by
  obtain ⟨K, hK, hr, hc, hone, hkeep⟩ :=
    commOuter_fold n n (Mat.zeros (n * n) (n * n)) (le_refl _) rfl rfl
  refine ⟨K, by rw [commutation_mat_eq]; exact hK, hr, hc, ?_⟩
  intro r c hrlt
  by_cases h : c = commCol n r
  · rw [if_pos h]
    exact hone r c ((comm_position_iff n r c hrlt).mpr h)
  · rw [if_neg h, hkeep r c (fun hex => h ((comm_position_iff n r c hrlt).mp hex))]
    rfl

theorem Mat.mul_ok (A B : Mat) (h : A.n_cols = B.n_rows) :
    Mat.mul A B = .ok ⟨A.n_rows, B.n_cols,
      fun i j => ∑ k in Finset.range A.n_cols, A.elem i k * B.elem k j⟩ := by
  simp [Mat.mul, h]

/-- A sum against an indicator picks one term. -/
theorem sum_indicator_mul (N s : Nat) (hs : s < N) (f : Nat → ℚ) :
    (∑ k in Finset.range N, (if k = s then (1 : ℚ) else 0) * f k) = f s := by
  rw [Finset.sum_eq_single s]
  · simp
  · intro b _ hb; simp [hb]
  · intro h; exact absurd (Finset.mem_range.mpr hs) h

/-! ## C4, C7, C8: the commutation matrix -/

/-- The truncation index computed for `n = 1`. -/
theorem truncation_index_one : toUword (((1 : Nat) : Int) - 1 - 1) = 4294967295 := by
  decide

/-- C6, evaluated on the code: `elimination_mat(1)` raises an index-out-of-bounds error
instead of returning the 1×1 matrix `[[1]]`. -/
theorem elimination_mat_one : elimination_mat 1 = .error .indexOutOfBounds := by
  rfl

/-- C2, evaluated on the code at `n = 1`: the sample `[[5]]` is symmetric, and
`elimination_mat(1)` returns no matrix `L` at all, so none with `L · vec(A) = vech(A)`. -/
theorem elimination_mat_one_no_vech :
    isSymm 1 sampleOne ∧
    ¬ ∃ L, elimination_mat 1 = .ok L ∧
      ∃ V, Mat.mul L (vec 1 sampleOne) = .ok V ∧ V.sameAs (vech 1 sampleOne) := by
  refine ⟨⟨rfl, rfl, fun i hi j hj => rfl⟩, ?_⟩
  rintro ⟨L, hL, _⟩
  have hfail : elimination_mat 1 = .error .indexOutOfBounds := rfl
  rw [hfail] at hL
  exact Except.noConfusion hL

/-- C3, evaluated on the code at `n = 1`: `duplication_mat(1)` calls `elimination_mat(1)`
first and fails with its index-out-of-bounds error. -/
theorem duplication_mat_one : duplication_mat 1 = .error .indexOutOfBounds := by
  rfl

/-! ## The loop of `elimination_mat` for `n ≥ 2` -/

theorem tri_succ (j : Nat) : tri (j + 1) = tri j + (j + 1) := by
  unfold tri
  have h : (j + 1) * (j + 1 + 1) = j * (j + 1) + 2 * (j + 1) := by ring
  rw [h, Nat.add_mul_div_left _ _ (by decide : 0 < 2)]

theorem vechOffset_add_tri (n : Nat) : ∀ k, k ≤ n → vechOffset n k + tri (n - k) = tri n := by
  intro k
  induction k with
  | zero => intro _; simp [vechOffset]
  | succ k ih =>
    intro hk
    have h1 := ih (Nat.le_of_succ_le hk)
    have h2 : n - k = (n - (k + 1)) + 1 := by omega
    rw [h2, tri_succ] at h1
    simp only [vechOffset]
    omega

theorem cols_ok (A : Mat) (a b : Nat) (h1 : a ≤ b) (h2 : b < A.n_cols) :
    A.cols a b = .ok (colsP A a b) := by
  unfold Mat.cols colsP
  rw [if_neg]
  omega

theorem join_horiz_ok (A B : Mat) (h : A.n_rows = B.n_rows) :
    Mat.join_horiz A B = .ok (joinP A B) := by
  unfold Mat.join_horiz joinP
  rw [if_neg]
  intro hcon
  exact hcon.1 h

/-- The body of the loop, evaluated: `block = b + 1 ≥ 1` columns are available in `init`,
and `oes = o`. -/
theorem elimBody_eval (s : ElimState) (b o : Nat) (hb : s.block = (b : Int) + 1)
    (ho : s.oes = (o : Int)) (hbc : b < s.init.n_cols)
    (hb2 : 1 < s.init.n_cols → b + 1 < s.init.n_cols)
    (hrows : s.eli.n_rows = s.init.n_rows) :
    elimBody s = .ok
      ⟨joinP (elimMiddle s b) (Mat.zeros s.init.n_rows o),
        if s.init.n_cols > 1 then colsP s.init (b + 1) (s.init.n_cols - 1) else s.init,
        s.oes + 1, s.block - 1⟩ := by
  have e1 : toUword (s.block - 1) = b := by
    rw [hb]; simp [toUword_natCast]
  have e2 : toUword s.block = b + 1 := by
    rw [hb]
    have : (b : Int) + 1 = ((b + 1 : Nat) : Int) := by push_cast; rfl
    rw [this, toUword_natCast]
  have e3 : toUword s.oes = o := by rw [ho, toUword_natCast]
  unfold elimBody elimMiddle
  rw [e1, e2, e3, cols_ok s.init 0 b (Nat.zero_le b) hbc]
  by_cases hc1 : s.eli.n_cols = 1
  · by_cases hc2 : s.init.n_cols > 1
    · have hcols := cols_ok s.init (b + 1) (s.init.n_cols - 1) (by have := hb2 hc2; omega) (by omega)
      simp only [hc1, hc2, if_true, bind, Except.bind, hcols]
      rw [join_horiz_ok _ _ (by simp [colsP, Mat.zeros])]
      simp [colsP, pure, Except.pure]
    · simp only [hc1, hc2, if_true, if_false, bind, Except.bind, pure, Except.pure]
      rw [join_horiz_ok _ _ (by simp [colsP, Mat.zeros])]
      simp [colsP]
  · by_cases hc2 : s.init.n_cols > 1
    · have hcols := cols_ok s.init (b + 1) (s.init.n_cols - 1) (by have := hb2 hc2; omega) (by omega)
      have hj := join_horiz_ok s.eli (colsP s.init 0 b) (by simp [colsP, hrows])
      simp only [hc1, hc2, if_true, if_false, bind, Except.bind, hcols, hj]
      rw [join_horiz_ok _ _ (by simp [joinP, colsP, Mat.zeros, hrows])]
      simp [joinP, colsP, hrows, pure, Except.pure]
    · have hj := join_horiz_ok s.eli (colsP s.init 0 b) (by simp [colsP, hrows])
      simp only [hc1, hc2, if_false, bind, Except.bind, pure, Except.pure, hj]
      rw [join_horiz_ok _ _ (by simp [joinP, colsP, Mat.zeros, hrows])]
      simp [joinP, colsP, hrows]

theorem le_tri (j : Nat) : j ≤ tri j := by
  induction j with
  | zero => simp [tri]
  | succ j ih => rw [tri_succ]; omega

theorem lt_tri (j : Nat) (hj : 2 ≤ j) : j < tri j := by
  obtain ⟨i, rfl⟩ : ∃ i, j = i + 1 := ⟨j - 1, by omega⟩
  rw [tri_succ]
  have := le_tri i
  omega

theorem tri_one : tri 1 = 1 := by decide

/-- Column `q` of group `k`: quotient and remainder by `n + 1`. -/
theorem group_div_mod (n k q : Nat) (h1 : k * (n + 1) ≤ q) (h2 : q < (k + 1) * (n + 1)) :
    q / (n + 1) = k ∧ q % (n + 1) = q - k * (n + 1) := by
  have hq : q = (q - k * (n + 1)) + (n + 1) * k := by
    rw [Nat.mul_comm (n + 1) k]; omega
  have ht : q - k * (n + 1) < n + 1 := by
    have : (k + 1) * (n + 1) = k * (n + 1) + (n + 1) := by ring
    omega
  constructor
  · rw [hq, Nat.add_mul_div_left _ _ (Nat.succ_pos n), Nat.div_eq_of_lt ht, Nat.zero_add]
  · conv_lhs => rw [hq]
    rw [Nat.add_mul_mod_self_left, Nat.mod_eq_of_lt ht]

theorem elimMiddle_facts (n k b : Nat) (s : ElimState) (hn : 1 ≤ n)
    (hecols : s.eli.n_cols = (if k = 0 then 1 else k * (n + 1)))
    (herows : s.eli.n_rows = tri n) (hirows : s.init.n_rows = tri n) :
    (elimMiddle s b).n_rows = tri n ∧ (elimMiddle s b).n_cols = k * (n + 1) + (b + 1) ∧
    (∀ p q, q < k * (n + 1) → (elimMiddle s b).elem p q = s.eli.elem p q) ∧
    (∀ p q, k * (n + 1) ≤ q → (elimMiddle s b).elem p q = s.init.elem p (q - k * (n + 1))) := by
  by_cases hk0 : k = 0
  · subst hk0
    simp only [if_true] at hecols
    unfold elimMiddle
    rw [if_pos hecols]
    refine ⟨hirows, by simp [colsP], ?_, ?_⟩
    · intro p q hq
      simp at hq
    · intro p q _
      simp [colsP]
  · simp only [hk0, if_false] at hecols
    have hne : s.eli.n_cols ≠ 1 := by
      rw [hecols]
      have : 1 ≤ k := Nat.pos_of_ne_zero hk0
      have : 1 * (n + 1) ≤ k * (n + 1) := Nat.mul_le_mul_right _ this
      omega
    unfold elimMiddle
    rw [if_neg hne]
    refine ⟨by simp [joinP, colsP, herows, hirows], by simp [joinP, colsP, hecols], ?_, ?_⟩
    · intro p q hq
      simp [joinP, hecols, hq]
    · intro p q hq
      have : ¬ q < k * (n + 1) := by omega
      simp [joinP, colsP, hecols, this]

theorem elimBody_preserves (n k : Nat) (s : ElimState) (hk : k < n) (hinv : ElimInv n k s) :
    ∃ s1, elimBody s = .ok s1 ∧ ElimInv n (k + 1) s1 := by
  obtain ⟨hoes, hblock, herows, hecols, heent, hinit⟩ := hinv
  obtain ⟨hirows, hicols, hient⟩ := hinit hk
  have htri := vechOffset_add_tri n k (Nat.le_of_lt hk)
  have hicols2 : s.init.n_cols = tri (n - k) := by omega
  have hle := le_tri (n - k)
  have hb : s.block = ((n - k - 1 : Nat) : Int) + 1 := by
    rw [hblock]; omega
  have ho : s.oes = ((k + 1 : Nat) : Int) := by
    rw [hoes]; push_cast; rfl
  have hbc : n - k - 1 < s.init.n_cols := by omega
  have hb2 : 1 < s.init.n_cols → n - k - 1 + 1 < s.init.n_cols := by
    intro h1
    have h2 : 2 ≤ n - k := by
      by_contra hcon
      have h3 : n - k = 1 := by omega
      rw [hicols2, h3, tri_one] at h1
      omega
    have := lt_tri (n - k) h2
    omega
  have hk1 : (k + 1) * (n + 1) = k * (n + 1) + (n + 1) := by ring
  obtain ⟨hmr, hmc, hmold, hmnew⟩ := elimMiddle_facts n k (n - k - 1) s (by omega) hecols herows hirows
  refine ⟨_, elimBody_eval s (n - k - 1) (k + 1) hb ho hbc hb2 (herows.trans hirows.symm), ?_⟩
  generalize elimMiddle s (n - k - 1) = M at hmr hmc hmold hmnew
  refine ⟨?_, ?_, ?_, ?_, ?_, ?_⟩
  · show s.oes + 1 = ((k + 1 : Nat) : Int) + 1
    rw [hoes]; push_cast; rfl
  · show s.block - 1 = (n : Int) - ((k + 1 : Nat) : Int)
    rw [hblock]; push_cast; ring
  · show max M.n_rows s.init.n_rows = tri n
    rw [hmr, hirows, max_self]
  · rw [if_neg (Nat.succ_ne_zero k)]
    show M.n_cols + (k + 1) = (k + 1) * (n + 1)
    omega
  · intro p q hq
    show (if q < M.n_cols then M.elem p q else (0 : ℚ)) = eliEntry n p q
    by_cases hold : q < k * (n + 1)
    · rw [if_pos (by omega), hmold p q hold]
      exact heent p q hold
    · obtain ⟨hdiv, hmod⟩ := group_div_mod n k q (by omega) hq
      unfold eliEntry
      rw [hdiv, hmod]
      by_cases hin : q < M.n_cols
      · rw [if_pos hin, hmnew p q (by omega), hient]
        by_cases hp : p = q - k * (n + 1) + vechOffset n k
        · rw [if_pos hp, if_pos ⟨by omega, by omega⟩]
        · rw [if_neg hp, if_neg (fun hcon => hp (by omega))]
      · rw [if_neg hin, if_neg (fun hcon => hin (by omega))]
  · intro hk2
    have h2 : 2 ≤ n - k := by omega
    have hgt : s.init.n_cols > 1 := by
      have := lt_tri (n - k) h2
      omega
    simp only [hgt, if_true, colsP]
    refine ⟨hirows, ?_, ?_⟩
    · simp only [vechOffset]
      omega
    · intro p q
      rw [hient]
      simp only [vechOffset]
      by_cases hp : p = n - k - 1 + 1 + q + vechOffset n k
      · rw [if_pos hp, if_pos (by omega)]
      · rw [if_neg hp, if_neg (fun hcon => hp (by omega))]

theorem pred_mul_succ (n : Nat) (hn : 1 ≤ n) : (n - 1) * (n + 1) + 1 = n * n := by
  obtain ⟨m, rfl⟩ : ∃ m, n = m + 1 := ⟨n - 1, by omega⟩
  simp only [Nat.add_sub_cancel]
  ring

theorem toUword_sq (n : Nat) : toUword ((n : Int) * (n : Int)) = n * n := by
  rw [← Nat.cast_mul, toUword_natCast]

/-- From a state satisfying the invariant after `k` passes, the loop runs the remaining
`n - k` passes and stops. -/
theorem elimLoop_run (n : Nat) (hn : 2 ≤ n) :
    ∀ (d k : Nat) (s : ElimState) (fuel : Nat), k + d = n → ElimInv n k s → d + 1 ≤ fuel →
      ∃ s1, elimLoop ((n : Int) * (n : Int)) fuel s = .ok s1 ∧ ElimInv n n s1 := by
  intro d
  induction d with
  | zero =>
    intro k s fuel hkd hinv hfuel
    have hkn : k = n := by omega
    subst hkn
    obtain ⟨f, rfl⟩ : ∃ f, fuel = f + 1 := ⟨fuel - 1, by omega⟩
    refine ⟨s, ?_, hinv⟩
    have hcols : s.eli.n_cols = k * (k + 1) := by
      rw [hinv.2.2.2.1, if_neg (by omega)]
    have hge : ¬ s.eli.n_cols < k * k := by
      rw [hcols]
      have : k * k ≤ k * (k + 1) := Nat.mul_le_mul_left k (Nat.le_succ k)
      omega
    simp only [elimLoop, toUword_sq, hge, if_false]
  | succ d ih =>
    intro k s fuel hkd hinv hfuel
    have hk : k < n := by omega
    obtain ⟨f, rfl⟩ : ∃ f, fuel = f + 1 := ⟨fuel - 1, by omega⟩
    have hlt : s.eli.n_cols < n * n := by
      rw [hinv.2.2.2.1]
      have h1 := pred_mul_succ n (by omega)
      by_cases hk0 : k = 0
      · rw [if_pos hk0]
        have : 1 * 2 ≤ (n - 1) * (n + 1) :=
          Nat.mul_le_mul (by omega) (by omega)
        omega
      · rw [if_neg hk0]
        have : k * (n + 1) ≤ (n - 1) * (n + 1) := Nat.mul_le_mul_right _ (by omega)
        omega
    obtain ⟨s1, hbody, hinv1⟩ := elimBody_preserves n k s hk hinv
    obtain ⟨s2, hloop, hinv2⟩ := ih (k + 1) s1 f (by omega) hinv1 (by omega)
    refine ⟨s2, ?_, hinv2⟩
    simp only [elimLoop, toUword_sq, hlt, if_true, hbody]
    exact hloop

theorem toUword_tri (n : Nat) : toUword (Int.tdiv ((n : Int) * ((n : Int) + 1)) 2) = tri n := by
  have h : Int.tdiv ((n : Int) * ((n : Int) + 1)) 2 = ((n * (n + 1) / 2 : Nat) : Int) := by
    rw [Int.tdiv_eq_ediv (by positivity) (by decide)]
    push_cast
    rfl
  rw [h, toUword_natCast]
  rfl

/-- For `n ≥ 2`, `elimination_mat(n)` returns the `n(n+1)/2 × n²` matrix with entries
`eliEntry n`. -/
theorem elimination_mat_spec (n : Nat) (hn : 2 ≤ n) :
    ∃ L, elimination_mat (n : Int) = .ok L ∧ L.n_rows = tri n ∧ L.n_cols = n * n ∧
      ∀ p q, q < n * n → L.elem p q = eliEntry n p q := by
  have htpos : 0 < tri n := by
    have := le_tri n
    omega
  have hinv0 : ElimInv n 0
      ⟨⟨tri n, 1, fun i _ => (Mat.eye (tri n) (tri n)).elem i 0⟩, Mat.eye (tri n) (tri n), 1, n⟩ := by
    refine ⟨by simp, by simp, rfl, by simp, ?_, ?_⟩
    · intro p q hq
      simp at hq
    · intro _
      refine ⟨rfl, by simp [Mat.eye, vechOffset], ?_⟩
      intro p q
      simp [Mat.eye, vechOffset]
  have hnn : n ≤ n * n := Nat.le_mul_of_pos_left n (by omega)
  obtain ⟨s1, hloop, hinv1⟩ := elimLoop_run n hn n 0 _ (n * n + 1) (by omega) hinv0 (by omega)
  obtain ⟨_, _, herows, hecols, heent, _⟩ := hinv1
  rw [if_neg (by omega)] at hecols
  have hsucc : n * (n + 1) = n * n + n := by ring
  have hidx : toUword ((s1.eli.n_cols : Int) - (n : Int) - 1) = n * n - 1 := by
    have h : (s1.eli.n_cols : Int) - (n : Int) - 1 = ((n * n - 1 : Nat) : Int) := by
      rw [hecols, hsucc]
      have : 1 ≤ n * n := by omega
      push_cast [this]
      ring
    rw [h, toUword_natCast]
  refine ⟨colsP s1.eli 0 (n * n - 1), ?_, herows, ?_, ?_⟩
  · unfold elimination_mat
    simp only [toUword_tri, toUword_sq, Mat.col, Mat.eye, htpos, if_true, bind, Except.bind]
    simp only [Mat.eye] at hloop
    rw [hloop]
    simp only [hidx]
    exact cols_ok s1.eli 0 (n * n - 1) (Nat.zero_le _) (by omega)
  · show n * n - 1 - 0 + 1 = n * n
    omega
  · intro p q hq
    show s1.eli.elem p (0 + q) = eliEntry n p q
    rw [Nat.zero_add]
    exact heent p q (by omega)

/-! ## Half-vectorisation: positions and offsets -/

theorem vechIdx_eq (n : Nat) : vechIdx n = vechPrefix n n := rfl

theorem vechPrefix_succ (n k : Nat) :
    vechPrefix n (k + 1) = vechPrefix n k ++ vechColumn n k := by
  simp [vechPrefix, List.range_succ, List.flatMap_append]

theorem vechColumn_length (n j : Nat) : (vechColumn n j).length = n - j := by
  simp [vechColumn]

theorem vechPrefix_length (n : Nat) : ∀ k, (vechPrefix n k).length = vechOffset n k := by
  intro k
  induction k with
  | zero => rfl
  | succ k ih => rw [vechPrefix_succ, List.length_append, ih, vechColumn_length]; rfl

theorem vechOffset_mono (n : Nat) : ∀ j k, j ≤ k → vechOffset n j ≤ vechOffset n k := by
  intro j k hjk
  induction k with
  | zero =>
    have : j = 0 := by omega
    subst this; exact le_refl _
  | succ k ih =>
    rcases Nat.lt_or_ge j (k + 1) with h | h
    · have := ih (by omega)
      simp only [vechOffset]
      omega
    · have : j = k + 1 := by omega
      subst this; exact le_refl _

theorem vechOffset_self (n : Nat) : vechOffset n n = tri n := by
  have := vechOffset_add_tri n n (le_refl _)
  simpa [tri] using this

theorem vechIdx_length (n : Nat) : (vechIdx n).length = tri n := by
  rw [vechIdx_eq, vechPrefix_length, vechOffset_self]

/-- Entry `t` of column `j` sits at index `vechOffset n j + t` of the prefix. -/
theorem vechPrefix_get (n : Nat) :
    ∀ k j t, j < k → t < n - j → (vechPrefix n k)[vechOffset n j + t]? = some (j + t, j) := by
  intro k
  induction k with
  | zero => intro j t hj _; omega
  | succ k ih =>
    intro j t hj ht
    rw [vechPrefix_succ]
    rcases Nat.lt_succ_iff_lt_or_eq.mp hj with h | h
    · have hlt : vechOffset n j + t < (vechPrefix n k).length := by
        rw [vechPrefix_length]
        have h1 := vechOffset_mono n (j + 1) k (by omega)
        simp only [vechOffset] at h1
        omega
      rw [List.getElem?_append_left hlt]
      exact ih j t h ht
    · subst h
      have hge : (vechPrefix n j).length ≤ vechOffset n j + t := by
        rw [vechPrefix_length]; omega
      rw [List.getElem?_append_right hge, vechPrefix_length, Nat.add_sub_cancel_left]
      simp [vechColumn, List.getElem?_map, List.getElem?_range' j 1 ht]

/-- Every index below `vechOffset n k` is `vechOffset n j + t` for a column `j < k` and a
position `t < n - j`. -/
theorem vechOffset_decompose (n : Nat) :
    ∀ k p, p < vechOffset n k → ∃ j t, j < k ∧ t < n - j ∧ p = vechOffset n j + t := by
  intro k
  induction k with
  | zero => intro p hp; simp [vechOffset] at hp
  | succ k ih =>
    intro p hp
    rcases Nat.lt_or_ge p (vechOffset n k) with h | h
    · obtain ⟨j, t, hj, ht, hpe⟩ := ih p h
      exact ⟨j, t, Nat.lt_succ_of_lt hj, ht, hpe⟩
    · simp only [vechOffset] at hp
      exact ⟨k, p - vechOffset n k, Nat.lt_succ_self k, by omega, by omega⟩

/-- The decomposition `vechOffset n j + t` is unique. -/
theorem vechOffset_inj (n j t g u : Nat) (ht : t < n - j) (hu : u < n - g)
    (h : vechOffset n j + t = vechOffset n g + u) : j = g ∧ t = u := by
  rcases Nat.lt_trichotomy j g with hlt | heq | hgt
  · have h1 := vechOffset_mono n (j + 1) g (by omega)
    simp only [vechOffset] at h1
    omega
  · subst heq
    exact ⟨rfl, by omega⟩
  · have h1 := vechOffset_mono n (g + 1) j (by omega)
    simp only [vechOffset] at h1
    omega

/-- Row `vechOffset n j + t` of the elimination matrix has its 1 in column
`(j + t) + n * j`, the position of `A(j + t, j)` in `vec(A)`. -/
theorem eliEntry_row (n j t q : Nat) (ht : t < n - j) :
    eliEntry n (vechOffset n j + t) q = if q = (j + t) + n * j then 1 else 0 := by
  unfold eliEntry
  by_cases hqe : q = (j + t) + n * j
  · have hq2 : q = t + (n + 1) * j := by rw [hqe]; ring
    have htl : t < n + 1 := by omega
    have hdiv : q / (n + 1) = j := by
      rw [hq2, Nat.add_mul_div_left _ _ (Nat.succ_pos n), Nat.div_eq_of_lt htl, Nat.zero_add]
    have hmod : q % (n + 1) = t := by
      rw [hq2, Nat.add_mul_mod_self_left, Nat.mod_eq_of_lt htl]
    rw [hdiv, hmod, if_pos ⟨ht, rfl⟩, if_pos hqe]
  · rw [if_neg hqe, if_neg]
    rintro ⟨hlt, heq⟩
    have hg : q / (n + 1) < n := by
      by_contra hcon
      have : n - q / (n + 1) = 0 := by omega
      omega
    obtain ⟨hjg, htu⟩ := vechOffset_inj n j t (q / (n + 1)) (q % (n + 1)) ht hlt heq
    apply hqe
    have hdm := Nat.mod_add_div q (n + 1)
    rw [← hjg, ← htu] at hdm
    rw [← hdm]
    ring

/-- For `n ≥ 2` and every `n × n` matrix `A`, `elimination_mat(n) · vec(A) = vech(A)`. -/
theorem elimination_mat_vech (n : Nat) (hn : 2 ≤ n) (A : Mat) :
    ∃ L, elimination_mat (n : Int) = .ok L ∧ L.n_rows = tri n ∧ L.n_cols = n * n ∧
      ∃ V, Mat.mul L (vec n A) = .ok V ∧ V.sameAs (vech n A) := by
  obtain ⟨L, hL, hr, hc, hent⟩ := elimination_mat_spec n hn
  refine ⟨L, hL, hr, hc, _, Mat.mul_ok L (vec n A) hc, ?_, rfl, ?_⟩
  · show L.n_rows = (vechIdx n).length
    rw [hr, vechIdx_length]
  · intro p hp c hc1
    have hp2 : p < vechOffset n n := by
      have : p < L.n_rows := hp
      rw [hr, ← vechOffset_self] at this
      exact this
    have hc0 : c = 0 := by
      have : c < 1 := hc1
      omega
    subst hc0
    obtain ⟨j, t, hj, ht, hpe⟩ := vechOffset_decompose n n p hp2
    show (∑ k in Finset.range L.n_cols, L.elem p k * A.elem (k % n) (k / n)) = (vech n A).elem p 0
    have hq0 : (j + t) + n * j < n * n := mul_index_lt n (j + t) j (by omega) hj
    have hsum : (∑ k in Finset.range L.n_cols, L.elem p k * A.elem (k % n) (k / n)) =
        ∑ k in Finset.range (n * n),
          (if k = (j + t) + n * j then (1 : ℚ) else 0) * A.elem (k % n) (k / n) := by
      rw [hc]
      apply Finset.sum_congr rfl
      intro k hk
      have hk2 : k < n * n := Finset.mem_range.mp hk
      rw [hent p k hk2, hpe, eliEntry_row n j t k ht]
    rw [hsum, sum_indicator_mul _ _ hq0]
    have hmod : ((j + t) + n * j) % n = j + t := by
      rw [Nat.add_mul_mod_self_left, Nat.mod_eq_of_lt (by omega)]
    have hdiv : ((j + t) + n * j) / n = j := by
      rw [Nat.add_mul_div_left _ _ (by omega : 0 < n), Nat.div_eq_of_lt (by omega), Nat.zero_add]
    rw [hmod, hdiv]
    show A.elem (j + t) j = (match (vechIdx n)[p]? with
      | some (i, j) => A.elem i j
      | none => 0)
    rw [vechIdx_eq, hpe, vechPrefix_get n n j t hj ht]

/-! ## Gauss–Jordan on a diagonal matrix -/

theorem findPivot_diag (m k : Nat) (A : Nat → Nat → ℚ) (hk : k < m) (hne : A k k ≠ 0) :
    findPivot m k A = some k := by
  unfold findPivot
  obtain ⟨c, hc⟩ : ∃ c, m - k = c + 1 := ⟨m - k - 1, by omega⟩
  rw [hc, List.range'_succ, List.find?_cons]
  simp [hne]

/-- Gauss–Jordan elimination started at pivot `k` on a pair `(A | B)` that is diagonal
inside the `m × m` window, with the first `k` pivots already normalised, returns the
diagonal matrix of reciprocals. -/
theorem gaussJordan_diag (m : Nat) (d : Nat → ℚ) (hd : ∀ i, i < m → d i ≠ 0) :
    ∀ (steps k : Nat) (A B : Nat → Nat → ℚ), k + steps = m →
      (∀ i j, i < m → j < m → A i j = if i = j then (if i < k then 1 else d i) else 0) →
      (∀ i j, i < m → j < m → B i j = if i = j then (if i < k then 1 / d i else 1) else 0) →
      ∃ R, gaussJordan m steps k A B = some R ∧
        ∀ i j, i < m → j < m → R i j = if i = j then 1 / d i else 0 := by
  intro steps
  induction steps with
  | zero =>
    intro k A B hk _ hB
    refine ⟨B, rfl, ?_⟩
    intro i j hi hj
    rw [hB i j hi hj]
    have : i < k := by omega
    simp [this]
  | succ steps ih =>
    intro k A B hk hA hB
    have hkm : k < m := by omega
    have hAkk : A k k = d k := by
      rw [hA k k hkm hkm]; simp
    have hpiv : findPivot m k A = some k := findPivot_diag m k A hkm (by rw [hAkk]; exact hd k hkm)
    have hswap : ∀ M : Nat → Nat → ℚ, swapRows k k M = M := by
      intro M
      funext i j
      unfold swapRows
      by_cases h : i = k
      · rw [if_pos h, h]
      · rw [if_neg h, if_neg h]
    simp only [gaussJordan, hpiv, hswap, hAkk]
    apply ih (k + 1) _ _ (by omega)
    · intro i j hi hj
      unfold clearColumn
      by_cases hik : i = k
      · subst hik
        rw [if_pos rfl, hA i j hi hj]
        by_cases hij : i = j
        · subst hij
          simp [hd i hi]
        · simp [hij]
      · rw [if_neg hik, hA i k hi hkm, if_neg hik, hA i j hi hj]
        by_cases hij : i = j
        · subst hij
          have h1 : (i < k + 1) ↔ (i < k) := by omega
          simp [h1]
        · simp [hij]
    · intro i j hi hj
      unfold clearColumn
      by_cases hik : i = k
      · subst hik
        rw [if_pos rfl, hB i j hi hj]
        by_cases hij : i = j
        · subst hij
          simp
        · simp [hij]
      · rw [if_neg hik, hA i k hi hkm, if_neg hik, hB i j hi hj]
        by_cases hij : i = j
        · subst hij
          have h1 : (i < k + 1) ↔ (i < k) := by omega
          simp [h1]
        · simp [hij]

/-- `Mat.inv` on a square matrix that is diagonal with non-zero diagonal entries. -/
theorem inv_diag (M : Mat) (d : Nat → ℚ) (hsq : M.n_rows = M.n_cols)
    (hd : ∀ i, i < M.n_rows → d i ≠ 0)
    (hM : ∀ i j, i < M.n_rows → j < M.n_rows → M.elem i j = if i = j then d i else 0) :
    ∃ R, Mat.inv M = .ok R ∧ R.n_rows = M.n_rows ∧ R.n_cols = M.n_rows ∧
      ∀ i j, i < M.n_rows → j < M.n_rows → R.elem i j = if i = j then 1 / d i else 0 := by
  obtain ⟨R, hR, hent⟩ := gaussJordan_diag M.n_rows d hd M.n_rows 0 M.elem
    (Mat.eye M.n_rows M.n_rows).elem (by omega)
    (by intro i j hi hj; rw [hM i j hi hj]; simp)
    (by intro i j _ _; simp [Mat.eye])
  refine ⟨⟨M.n_rows, M.n_rows, R⟩, ?_, rfl, rfl, hent⟩
  unfold Mat.inv
  rw [if_neg (by simp [hsq]), hR]

/-! ## The duplication matrix for `n ≥ 2` -/

theorem vechPos_eq (n j t : Nat) (hj : j < n) (ht : t < n - j) :
    vechPos n (vechOffset n j + t) = (j + t, j) := by
  unfold vechPos
  rw [List.getD_eq_getElem?_getD, vechIdx_eq, vechPrefix_get n n j t hj ht]
  rfl

theorem vechDiagWeight_eq (n j t : Nat) (hj : j < n) (ht : t < n - j) :
    vechDiagWeight n (vechOffset n j + t) = if t = 0 then 2 else 1 := by
  unfold vechDiagWeight
  rw [vechPos_eq n j t hj ht]
  by_cases h : t = 0
  · subst h; simp
  · rw [if_neg h, if_neg]
    simp only
    omega

theorem vechDiagWeight_ne_zero (n p : Nat) : vechDiagWeight n p ≠ 0 := by
  unfold vechDiagWeight
  split <;> norm_num

/-- Base-`n` digits are unique. -/
theorem digits_unique (n a b c d : Nat) (ha : a < n) (hc : c < n) :
    a + n * b = c + n * d ↔ a = c ∧ b = d := by
  constructor
  · intro h
    have hn : 0 < n := by omega
    have h1 : (a + n * b) % n = a := by
      rw [Nat.add_mul_mod_self_left, Nat.mod_eq_of_lt ha]
    have h2 : (c + n * d) % n = c := by
      rw [Nat.add_mul_mod_self_left, Nat.mod_eq_of_lt hc]
    have h3 : (a + n * b) / n = b := by
      rw [Nat.add_mul_div_left _ _ hn, Nat.div_eq_of_lt ha, Nat.zero_add]
    have h4 : (c + n * d) / n = d := by
      rw [Nat.add_mul_div_left _ _ hn, Nat.div_eq_of_lt hc, Nat.zero_add]
    rw [h] at h1 h3
    exact ⟨h1.symm.trans h2, h3.symm.trans h4⟩
  · rintro ⟨rfl, rfl⟩; rfl

theorem commCol_digits (n a b : Nat) (ha : a < n) (hb : b < n) :
    commCol n (a + n * b) = b + n * a := by
  have hn : 0 < n := by omega
  unfold commCol
  rw [Nat.add_mul_div_left _ _ hn, Nat.div_eq_of_lt ha, Nat.zero_add,
    Nat.add_mul_mod_self_left, Nat.mod_eq_of_lt ha]

/-- A sum against "identity row plus one more unit" picks two terms. -/
theorem sum_two_indicators (N r s : Nat) (hr : r < N) (hs : s < N) (f : Nat → ℚ) :
    (∑ c in Finset.range N,
      ((if r = c then (1 : ℚ) else 0) + (if c = s then (1 : ℚ) else 0)) * f c) = f r + f s := by
  have h : ∀ c, ((if r = c then (1 : ℚ) else 0) + (if c = s then (1 : ℚ) else 0)) * f c =
      (if c = r then (1 : ℚ) else 0) * f c + (if c = s then (1 : ℚ) else 0) * f c := by
    intro c
    rw [add_mul]
    congr 2
    by_cases hrc : r = c
    · rw [if_pos hrc, if_pos hrc.symm]
    · rw [if_neg hrc, if_neg (fun h => hrc h.symm)]
  simp only [h]
  rw [Finset.sum_add_distrib, sum_indicator_mul N r hr, sum_indicator_mul N s hs]

/-- Value of `eliEntry` at a row and a column given by their coordinates. -/
theorem eliEntry_coords (n j t a b : Nat) (ht : t < n - j) (ha : a < n) :
    eliEntry n (vechOffset n j + t) (a + n * b) = if a = j + t ∧ b = j then 1 else 0 := by
  rw [eliEntry_row n j t (a + n * b) ht]
  by_cases h : a = j + t ∧ b = j
  · rw [if_pos h, if_pos ((digits_unique n a b (j + t) j ha (by omega)).mpr h)]
  · rw [if_neg h, if_neg (fun hq => h ((digits_unique n a b (j + t) j ha (by omega)).mp hq))]

/-- The sum `I + K` of the identity and the commutation matrix. -/
theorem eye_add_comm_ok (n : Nat) (K : Mat) (hKr : K.n_rows = n * n) (hKc : K.n_cols = n * n)
    (hKent : ∀ r c, r < n * n → K.elem r c = if c = commCol n r then 1 else 0) :
    ∃ m, Mat.add (Mat.eye (n * n) (n * n)) K = .ok m ∧
      m.n_rows = n * n ∧ m.n_cols = n * n ∧
      ∀ r c, r < n * n → m.elem r c =
        (if r = c then (1 : ℚ) else 0) + (if c = commCol n r then (1 : ℚ) else 0) := by
  refine ⟨⟨n * n, n * n, fun i j => (Mat.eye (n * n) (n * n)).elem i j + K.elem i j⟩,
    by simp [Mat.add, Mat.eye, hKr, hKc], rfl, rfl, ?_⟩
  intro r c hr
  show (Mat.eye (n * n) (n * n)).elem r c + K.elem r c = _
  rw [hKent r c hr]
  rfl

/-- Row `vechOffset n j + t` of `L (I + K)`. -/
theorem elim_mul_sum_row (n : Nat) (L m : Mat) (hLc : L.n_cols = n * n)
    (hLent : ∀ p q, q < n * n → L.elem p q = eliEntry n p q)
    (hment : ∀ r c, r < n * n → m.elem r c =
      (if r = c then (1 : ℚ) else 0) + (if c = commCol n r then (1 : ℚ) else 0)) :
    ∀ j t c, j < n → t < n - j →
      (∑ k in Finset.range L.n_cols, L.elem (vechOffset n j + t) k * m.elem k c) =
        (if (j + t) + n * j = c then (1 : ℚ) else 0) +
          (if c = j + n * (j + t) then (1 : ℚ) else 0) := by
  intro j t c hj ht
  have hq : (j + t) + n * j < n * n := mul_index_lt n (j + t) j (by omega) hj
  have hstep : (∑ k in Finset.range L.n_cols, L.elem (vechOffset n j + t) k * m.elem k c) =
      ∑ k in Finset.range (n * n),
        (if k = (j + t) + n * j then (1 : ℚ) else 0) * m.elem k c := by
    rw [hLc]
    apply Finset.sum_congr rfl
    intro k hk
    rw [hLent _ k (Finset.mem_range.mp hk), eliEntry_row n j t k ht]
  rw [hstep, sum_indicator_mul _ _ hq, hment _ c hq, commCol_digits n (j + t) j (by omega) hj]

/-- The matrix `L (I + K) Lᵗ` is diagonal, with 2 at the diagonal positions of `vech` and
1 at the others. -/
theorem inner_product_diag (n : Nat) (L m : Mat) (hLc : L.n_cols = n * n)
    (hLent : ∀ p q, q < n * n → L.elem p q = eliEntry n p q) (hmc : m.n_cols = n * n)
    (hment : ∀ r c, r < n * n → m.elem r c =
      (if r = c then (1 : ℚ) else 0) + (if c = commCol n r then (1 : ℚ) else 0)) :
    ∀ p p2, p < tri n → p2 < tri n →
      (∑ c in Finset.range m.n_cols,
        (∑ k in Finset.range L.n_cols, L.elem p k * m.elem k c) * L.t.elem c p2) =
        if p = p2 then vechDiagWeight n p else 0 := by
  have hLM_ent := elim_mul_sum_row n L m hLc hLent hment
  intro p p2 hp hp2
  obtain ⟨j, t, hj, ht, rfl⟩ := vechOffset_decompose n n p (by rw [vechOffset_self]; exact hp)
  obtain ⟨g, u, hg, hu, rfl⟩ := vechOffset_decompose n n p2 (by rw [vechOffset_self]; exact hp2)
  have hq : (j + t) + n * j < n * n := mul_index_lt n (j + t) j (by omega) hj
  have hq2 : j + n * (j + t) < n * n := mul_index_lt n j (j + t) hj (by omega)
  have hstep : (∑ c in Finset.range m.n_cols,
        (∑ k in Finset.range L.n_cols, L.elem (vechOffset n j + t) k * m.elem k c) *
          L.t.elem c (vechOffset n g + u)) =
      ∑ c in Finset.range (n * n),
        ((if (j + t) + n * j = c then (1 : ℚ) else 0) +
          (if c = j + n * (j + t) then (1 : ℚ) else 0)) *
          eliEntry n (vechOffset n g + u) c := by
    rw [hmc]
    apply Finset.sum_congr rfl
    intro c hc
    rw [hLM_ent j t c hj ht]
    show _ * L.elem (vechOffset n g + u) c = _
    rw [hLent _ c (Finset.mem_range.mp hc)]
  rw [hstep, sum_two_indicators _ _ _ hq hq2,
    eliEntry_coords n g u (j + t) j hu (by omega), eliEntry_coords n g u j (j + t) hu hj,
    vechDiagWeight_eq n j t hj ht]
  by_cases hpp : vechOffset n j + t = vechOffset n g + u
  · obtain ⟨rfl, rfl⟩ := vechOffset_inj n j t g u ht hu hpp
    rw [if_pos rfl, if_pos ⟨rfl, rfl⟩]
    by_cases ht0 : t = 0
    · subst ht0
      rw [if_pos ⟨rfl, rfl⟩, if_pos rfl]
      norm_num
    · rw [if_neg (fun h => ht0 (by omega)), if_neg ht0]
      norm_num
  · have hc1 : ¬ (j + t = g + u ∧ j = g) := by
      rintro ⟨h1, h2⟩
      apply hpp
      subst h2
      have h3 : t = u := by omega
      rw [h3]
    have hc2 : ¬ (j = g + u ∧ j + t = g) := by
      rintro ⟨h1, h2⟩
      apply hpp
      have h3 : u = 0 := by omega
      have h4 : t = 0 := by omega
      have h5 : j = g := by omega
      rw [h3, h4, h5]
    rw [if_neg hpp, if_neg hc1, if_neg hc2]
    norm_num

/-- For `n ≥ 2`, `duplication_mat(n)` returns the `n² × n(n+1)/2` matrix whose entry at
the row of `vec` position `(a, b)` and the column of `vech` position `(j + t, j)` is 1
when `(a, b)` is that position or its mirror image, and 0 otherwise. -/
theorem duplication_mat_spec (n : Nat) (hn : 2 ≤ n) :
    ∃ D, duplication_mat (n : Int) = .ok D ∧ D.n_rows = n * n ∧ D.n_cols = tri n ∧
      ∀ a b j t, a < n → b < n → j < n → t < n - j →
        D.elem (a + n * b) (vechOffset n j + t) =
          if (a = j + t ∧ b = j) ∨ (b = j + t ∧ a = j) then 1 else 0 := by
  obtain ⟨L, hL, hLr, hLc, hLent⟩ := elimination_mat_spec n hn
  obtain ⟨K, hK, hKr, hKc, hKent⟩ := commutation_mat_spec n
  obtain ⟨m, hm, hmr, hmc, hment⟩ := eye_add_comm_ok n K hKr hKc hKent
  -- lhs = m * Lᵗ
  have hlhs := Mat.mul_ok m L.t (by rw [hmc]; exact hLc.symm)
  have hlhs_ent : ∀ a b j t, a < n → b < n → j < n → t < n - j →
      (∑ k in Finset.range m.n_cols, m.elem (a + n * b) k * L.t.elem k (vechOffset n j + t)) =
        (if a = j + t ∧ b = j then (1 : ℚ) else 0) + (if b = j + t ∧ a = j then (1 : ℚ) else 0) := by
    intro a b j t ha hb hj ht
    have hr : a + n * b < n * n := mul_index_lt n a b ha hb
    have hstep : (∑ k in Finset.range m.n_cols,
          m.elem (a + n * b) k * L.t.elem k (vechOffset n j + t)) =
        ∑ k in Finset.range (n * n),
          ((if a + n * b = k then (1 : ℚ) else 0) +
            (if k = commCol n (a + n * b) then (1 : ℚ) else 0)) *
            eliEntry n (vechOffset n j + t) k := by
      rw [hmc]
      apply Finset.sum_congr rfl
      intro k hk
      rw [hment _ k hr]
      show _ * L.elem (vechOffset n j + t) k = _
      rw [hLent _ k (Finset.mem_range.mp hk)]
    rw [hstep, sum_two_indicators _ _ _ hr (commCol_lt n _ hr), commCol_digits n a b ha hb,
      eliEntry_coords n j t a b ht ha, eliEntry_coords n j t b a ht hb]
  -- L * m
  have hLM := Mat.mul_ok L m (by rw [hLc]; exact hmr.symm)
  -- inner = (L * m) * Lᵗ is diagonal
  have hinner := Mat.mul_ok
    ⟨L.n_rows, m.n_cols, fun i j => ∑ k in Finset.range L.n_cols, L.elem i k * m.elem k j⟩ L.t
    (by show m.n_cols = L.n_cols; rw [hmc, hLc])
  have hinner_ent := inner_product_diag n L m hLc hLent hmc hment
  -- its inverse
  obtain ⟨R, hR, hRr, hRc, hRent⟩ := inv_diag
    ⟨L.n_rows, L.t.n_cols, fun i j => ∑ c in Finset.range m.n_cols,
      (∑ k in Finset.range L.n_cols, L.elem i k * m.elem k c) * L.t.elem c j⟩
    (vechDiagWeight n) rfl (fun i _ => vechDiagWeight_ne_zero n i)
    (by
      intro i j hi hj
      have hi2 : i < tri n := by
        have : i < L.n_rows := hi
        rw [hLr] at this; exact this
      have hj2 : j < tri n := by
        have : j < L.n_rows := hj
        rw [hLr] at this; exact this
      exact hinner_ent i j hi2 hj2)
  have hRr2 : R.n_rows = tri n := by rw [hRr]; exact hLr
  have hRc2 : R.n_cols = tri n := by rw [hRc]; exact hLr
  -- dup = lhs * inverse
  have hdup := Mat.mul_ok
    ⟨m.n_rows, L.t.n_cols, fun i j => ∑ k in Finset.range m.n_cols, m.elem i k * L.t.elem k j⟩ R
    (by show L.n_rows = R.n_rows; rw [hRr2, hLr])
  have hcomp : duplication_mat (n : Int) = Mat.mul
      ⟨m.n_rows, L.t.n_cols,
        fun i j => ∑ k in Finset.range m.n_cols, m.elem i k * L.t.elem k j⟩ R := by
    unfold duplication_mat
    simp only [hL, hK, toUword_sq, hm, hlhs, hLM, hinner, hR, bind, Except.bind, pure,
      Except.pure]
    cases Mat.mul
      ⟨m.n_rows, L.t.n_cols,
        fun i j => ∑ k in Finset.range m.n_cols, m.elem i k * L.t.elem k j⟩ R <;> rfl
  refine ⟨_, hcomp.trans hdup, ?_, ?_, ?_⟩
  · exact hmr
  · exact hRc2
  · intro a b j t ha hb hj ht
    show (∑ k in Finset.range L.n_rows,
      (∑ c in Finset.range m.n_cols, m.elem (a + n * b) c * L.t.elem c k) *
        R.elem k (vechOffset n j + t)) = _
    have hp : vechOffset n j + t < tri n := by
      have h1 := vechOffset_mono n (j + 1) n (by omega)
      simp only [vechOffset] at h1
      rw [vechOffset_self] at h1
      omega
    rw [hLr, Finset.sum_eq_single (vechOffset n j + t)]
    · rw [hlhs_ent a b j t ha hb hj ht, hRent _ _ (by show _ < L.n_rows; rw [hLr]; exact hp)
        (by show _ < L.n_rows; rw [hLr]; exact hp), if_pos rfl, vechDiagWeight_eq n j t hj ht]
      by_cases ht0 : t = 0
      · subst ht0
        by_cases hab : a = j ∧ b = j
        · have h2 : b = j ∧ a = j := ⟨hab.2, hab.1⟩
          simp only [Nat.add_zero, if_pos hab, if_pos h2, if_pos (Or.inl hab), if_pos rfl]
          norm_num
        · have h2 : ¬ (b = j ∧ a = j) := fun h => hab ⟨h.2, h.1⟩
          have h3 : ¬ ((a = j ∧ b = j) ∨ (b = j ∧ a = j)) := by
            rintro (h | h)
            · exact hab h
            · exact h2 h
          simp only [Nat.add_zero, if_neg hab, if_neg h2, if_neg h3]
          norm_num
      · rw [if_neg ht0]
        by_cases h1 : a = j + t ∧ b = j
        · have h2 : ¬ (b = j + t ∧ a = j) := by
            rintro ⟨h3, h4⟩
            omega
          rw [if_pos h1, if_neg h2, if_pos (Or.inl h1)]
          norm_num
        · by_cases h2 : b = j + t ∧ a = j
          · rw [if_neg h1, if_pos h2, if_pos (Or.inr h2)]
            norm_num
          · have h3 : ¬ ((a = j + t ∧ b = j) ∨ (b = j + t ∧ a = j)) := by
              rintro (h | h)
              · exact h1 h
              · exact h2 h
            rw [if_neg h1, if_neg h2, if_neg h3]
            norm_num
    · intro k hk hne
      have hk2 : k < L.n_rows := by rw [hLr]; exact Finset.mem_range.mp hk
      rw [hRent k _ hk2 (by show _ < L.n_rows; rw [hLr]; exact hp), if_neg hne, mul_zero]
    · intro hnot
      exact absurd (Finset.mem_range.mpr hp) hnot

/-- C13: for `R` with `N = 0` rows and any `signs`, the loop over the rows runs no body
(whatever the body is, the state comes back unchanged), no error is raised, and the
result is `0 / 0`, which is NaN. -/
theorem expected_indicator_value_no_rows (R signs : DMat) (hN : R.n_rows = 0) :
    (∀ (body : Int → ℚ → Except ArmaError ℚ) (acc : ℚ),
      forInt 0 (R.n_rows : Int) body acc = .ok acc) ∧
    expected_indicator_value R signs = .ok .nan := by
  constructor
  · intro body acc
    rw [hN]
    rfl
  · rw [expected_indicator_value_eq, hN]
    rfl

/-- Instance of C13 at the empty 0 × 3 matrix. -/
theorem expected_indicator_value_no_rows_witness :
    (⟨0, 3, fun _ _ => .num 0⟩ : DMat).n_rows = 0 ∧
    expected_indicator_value ⟨0, 3, fun _ _ => .num 0⟩ (colVec [1, 1, 1]) = .ok .nan :=
  ⟨rfl, (expected_indicator_value_no_rows ⟨0, 3, fun _ _ => .num 0⟩ (colVec [1, 1, 1]) rfl).2⟩

/-! ## C12: `elimination_mat` and `duplication_mat` for `n ≤ 0` -/

theorem uword_modulus : (2 : Int) ^ uwordBits = 4294967296 := by
  norm_num [uwordBits]

/-- A negative `int` above `-2 ^ 32` wraps to `2 ^ 32 + z`. -/
theorem toUword_neg (z : Int) (h1 : z < 0) (h2 : -4294967296 ≤ z) :
    (toUword z : Int) = z + 4294967296 := by
  unfold toUword
  rw [if_neg (by omega), uword_modulus]
  omega

/-- When the first block is out of range, the first pass of the loop raises. -/
theorem elimBody_first_fails (s : ElimState) (h1 : s.eli.n_cols = 1)
    (hb : s.init.n_cols ≤ toUword (s.block - 1)) :
    elimBody s = .error .indexOutOfBounds := by
  unfold elimBody
  have hc : s.init.cols 0 (toUword (s.block - 1)) = .error .indexOutOfBounds := by
    unfold Mat.cols
    rw [if_pos (Or.inr hb)]
  simp only [h1, if_true, hc, bind, Except.bind]

theorem elimination_mat_of_empty_init (n : Int) (h : Int.tdiv (n * (n + 1)) 2 = 0) :
    elimination_mat n = .error .indexOutOfBounds := by
  unfold elimination_mat
  simp only [h]
  rfl

theorem nonpositive_range (n : Int) (hn : n ≤ 0) (hfit : n * (n + 1) < 2 ^ 31) :
    -65536 ≤ n := by
  by_contra hcon
  have h1 : n ≤ -65537 := by omega
  nlinarith

/-- For `n ≤ -2` the first block requested from `init` has last column `n - 1`, which
wraps beyond the `n (n + 1) / 2` columns of `init`. -/
theorem elimination_mat_negative (n : Int) (hn : n ≤ -2) (hfit : n * (n + 1) < 2 ^ 31) :
    elimination_mat n = .error .indexOutOfBounds := by
  have hrange := nonpositive_range n (by omega) hfit
  have hprod : 2 ≤ n * (n + 1) := by nlinarith
  have hdiv : Int.tdiv (n * (n + 1)) 2 = n * (n + 1) / 2 :=
    Int.tdiv_eq_ediv (by omega) (by decide)
  have hn1 : 1 ≤ n * (n + 1) / 2 := by omega
  have hn1u : (toUword (n * (n + 1) / 2) : Int) = n * (n + 1) / 2 := by
    rw [toUword_of_nonneg (by omega), Int.toNat_of_nonneg (by omega)]
  have hsq : 4 ≤ n * n := by nlinarith
  have hsqu : (toUword (n * n) : Int) = n * n := by
    rw [toUword_of_nonneg (by omega), Int.toNat_of_nonneg (by omega)]
  have hidx := toUword_neg (n - 1) (by omega) (by omega)
  have hpos : 0 < toUword (n * (n + 1) / 2) := by omega
  have hbody : elimBody
      ⟨⟨toUword (n * (n + 1) / 2), 1,
          fun i _ => (Mat.eye (toUword (n * (n + 1) / 2)) (toUword (n * (n + 1) / 2))).elem i 0⟩,
        Mat.eye (toUword (n * (n + 1) / 2)) (toUword (n * (n + 1) / 2)), 1, n⟩ =
      .error .indexOutOfBounds := by
    apply elimBody_first_fails _ rfl
    show toUword (n * (n + 1) / 2) ≤ toUword (n - 1)
    have h31 : (2 : Int) ^ 31 = 2147483648 := by norm_num
    rw [h31] at hfit
    omega
  have hcond : 1 < toUword (n * n) := by omega
  unfold elimination_mat
  simp only [hdiv, Mat.col, Mat.eye, hpos, if_true, bind, Except.bind, elimLoop, hcond]
  simp only [Mat.eye] at hbody
  rw [hbody]

/-- C12: for every `n ≤ 0` whose product `n (n + 1)`, computed by the source, fits in a
32-bit `int`, `elimination_mat(n)` fails with an index-out-of-bounds error, and so does
`duplication_mat(n)`, which calls it first. -/
theorem elimination_mat_nonpositive (n : Int) (hn : n ≤ 0) (hfit : n * (n + 1) < 2 ^ 31) :
    elimination_mat n = .error .indexOutOfBounds ∧
    duplication_mat n = .error .indexOutOfBounds := by
  have hel : elimination_mat n = .error .indexOutOfBounds := by
    rcases Int.lt_or_le (-2) n with h | h
    · have hcase : n = 0 ∨ n = -1 := by omega
      apply elimination_mat_of_empty_init
      rcases hcase with rfl | rfl <;> decide
    · exact elimination_mat_negative n h hfit
  refine ⟨hel, ?_⟩
  unfold duplication_mat
  rw [hel]
  rfl

/-- Instance of C12 at `n = -3`. -/
theorem elimination_mat_nonpositive_witness :
    elimination_mat (-3) = .error .indexOutOfBounds ∧
    duplication_mat (-3) = .error .indexOutOfBounds :=
  elimination_mat_nonpositive (-3) (by decide) (by decide)

/-! ## C16: the loop of `elimination_mat` against direct index computation -/

theorem elimination_mat_eq (n : Int) :
    elimination_mat n =
      (match elimInit n with
        | .error e => .error e
        | .ok s0 =>
          match elimLoop (n * n) (toUword (n * n) + 1) s0 with
          | .error e => .error e
          | .ok s => s.eli.cols 0 (toUword ((s.eli.n_cols : Int) - n - 1))) := by
  unfold elimination_mat elimInit
  simp only [bind, Except.bind, pure, Except.pure]
  generalize (Mat.eye (toUword (Int.tdiv (n * (n + 1)) 2))
      (toUword (Int.tdiv (n * (n + 1)) 2))).col 0 = c
  cases c with
  | error e => rfl
  | ok v =>
    dsimp only
    generalize elimLoop (n * n) (toUword (n * n) + 1)
      ⟨v, Mat.eye (toUword (Int.tdiv (n * (n + 1)) 2))
        (toUword (Int.tdiv (n * (n + 1)) 2)), 1, n⟩ = res
    cases res <;> rfl

/-- A diagonal matrix times the diagonal matrix of reciprocals, inside an `N × N` window. -/
theorem diag_mul_recip (N : Nat) (d : Nat → ℚ) (hd : ∀ i, i < N → d i ≠ 0) (X Y : Mat)
    (hX : ∀ i j, i < N → j < N → X.elem i j = if i = j then d i else 0)
    (hY : ∀ i j, i < N → j < N → Y.elem i j = if i = j then 1 / d i else 0) :
    ∀ i j, i < N → j < N →
      (∑ k in Finset.range N, X.elem i k * Y.elem k j) = (Mat.eye N N).elem i j ∧
      (∑ k in Finset.range N, Y.elem i k * X.elem k j) = (Mat.eye N N).elem i j := by
  intro i j hi hj
  have hdi := hd i hi
  constructor
  · rw [Finset.sum_eq_single i]
    · rw [hX i i hi hi, if_pos rfl, hY i j hi hj]
      by_cases hij : i = j
      · simp only [Mat.eye, if_pos hij]
        field_simp
      · simp only [Mat.eye, if_neg hij, mul_zero]
    · intro k hk hne
      rw [hX i k hi (Finset.mem_range.mp hk), if_neg (fun h => hne h.symm), zero_mul]
    · intro hnot
      exact absurd (Finset.mem_range.mpr hi) hnot
  · rw [Finset.sum_eq_single i]
    · rw [hY i i hi hi, if_pos rfl, hX i j hi hj]
      by_cases hij : i = j
      · simp only [Mat.eye, if_pos hij]
        field_simp
      · simp only [Mat.eye, if_neg hij, mul_zero]
    · intro k hk hne
      rw [hY i k hi (Finset.mem_range.mp hk), if_neg (fun h => hne h.symm), zero_mul]
    · intro hnot
      exact absurd (Finset.mem_range.mpr hi) hnot

/-- C15: for `n ≥ 1`, `duplication_mat(n)` never fails with a singular-inversion error,
and whenever it reaches the inversion (both `elimination_mat(n)` and `commutation_mat(n)`
returned and the products were formed), the matrix `L (I + K) Lᵗ` it inverts is square of
order `n(n+1)/2` and invertible: `inv` returns `G` with both products equal to the
identity.  For `n ≥ 2` the inversion is reached. -/
theorem duplication_mat_inversion_regular (n : Nat) (hn : 1 ≤ n) :
    duplication_mat (n : Int) ≠ .error .singular ∧
    (2 ≤ n → ∃ L K m LM inner : Mat,
      elimination_mat (n : Int) = .ok L ∧ commutation_mat (n : Int) = .ok K ∧
      Mat.add (Mat.eye (toUword ((n : Int) * (n : Int))) (toUword ((n : Int) * (n : Int)))) K
        = .ok m ∧
      Mat.mul L m = .ok LM ∧ Mat.mul LM L.t = .ok inner) ∧
    ∀ L K m LM inner : Mat,
      elimination_mat (n : Int) = .ok L → commutation_mat (n : Int) = .ok K →
      Mat.add (Mat.eye (toUword ((n : Int) * (n : Int))) (toUword ((n : Int) * (n : Int)))) K
        = .ok m →
      Mat.mul L m = .ok LM → Mat.mul LM L.t = .ok inner →
      inner.n_rows = n * (n + 1) / 2 ∧ inner.n_cols = n * (n + 1) / 2 ∧
      ∃ G, Mat.inv inner = .ok G ∧
        (∃ P, Mat.mul inner G = .ok P ∧ P.sameAs (Mat.eye (n * (n + 1) / 2) (n * (n + 1) / 2))) ∧
        (∃ Q, Mat.mul G inner = .ok Q ∧ Q.sameAs (Mat.eye (n * (n + 1) / 2) (n * (n + 1) / 2))) := by
  rcases Nat.lt_or_ge n 2 with h1 | h2
  · -- size 1: the call stops in `elimination_mat`
    have hn1 : n = 1 := by omega
    subst hn1
    have hel : elimination_mat ((1 : Nat) : Int) = .error .indexOutOfBounds := rfl
    have hdup : duplication_mat ((1 : Nat) : Int) = .error .indexOutOfBounds := rfl
    refine ⟨?_, fun h => absurd h (by decide), ?_⟩
    · rw [hdup]
      intro hcon
      injection hcon with hcon
      exact ArmaError.noConfusion hcon
    · intro L K m LM inner hL
      rw [hel] at hL
      exact Except.noConfusion hL
  · obtain ⟨D, hD, _⟩ := duplication_mat_spec n h2
    refine ⟨?_, fun _ => ?_, ?_⟩
    · rw [hD]
      intro hcon
      exact Except.noConfusion hcon
    · obtain ⟨L, hL, hLr, hLc, hLent⟩ := elimination_mat_spec n h2
      obtain ⟨K, hK, hKr, hKc, hKent⟩ := commutation_mat_spec n
      obtain ⟨m, hm, hmr, hmc, hment⟩ := eye_add_comm_ok n K hKr hKc hKent
      exact ⟨L, K, m, _, _, hL, hK, by rw [toUword_sq]; exact hm,
        Mat.mul_ok L m (by rw [hLc]; exact hmr.symm),
        Mat.mul_ok _ L.t (by show m.n_cols = L.n_cols; rw [hmc, hLc])⟩
    · intro L K m LM inner hL hK hm hLM hinner
      obtain ⟨L2, hL2, hLr, hLc, hLent⟩ := elimination_mat_spec n h2
      rw [hL] at hL2
      injection hL2 with hL2
      subst hL2
      obtain ⟨K2, hK2, hKr, hKc, hKent⟩ := commutation_mat_spec n
      rw [hK] at hK2
      injection hK2 with hK2
      subst hK2
      obtain ⟨m2, hm2, hmr, hmc, hment⟩ := eye_add_comm_ok n K hKr hKc hKent
      rw [toUword_sq, hm2] at hm
      injection hm with hm
      subst hm
      rw [Mat.mul_ok L m2 (by rw [hLc]; exact hmr.symm)] at hLM
      injection hLM with hLM
      subst hLM
      rw [Mat.mul_ok _ L.t (by show m2.n_cols = L.n_cols; rw [hmc, hLc])] at hinner
      injection hinner with hinner
      subst hinner
      have hdiag := inner_product_diag n L m2 hLc hLent hmc hment
      obtain ⟨G, hG, hGr, hGc, hGent⟩ := inv_diag
        ⟨L.n_rows, L.t.n_cols, fun i j => ∑ c in Finset.range m2.n_cols,
          (∑ k in Finset.range L.n_cols, L.elem i k * m2.elem k c) * L.t.elem c j⟩
        (vechDiagWeight n) rfl (fun i _ => vechDiagWeight_ne_zero n i)
        (by
          intro i j hi hj
          have hi2 : i < tri n := by
            have : i < L.n_rows := hi
            rw [hLr] at this; exact this
          have hj2 : j < tri n := by
            have : j < L.n_rows := hj
            rw [hLr] at this; exact this
          exact hdiag i j hi2 hj2)
      have hGr2 : G.n_rows = tri n := by rw [hGr]; exact hLr
      have hGc2 : G.n_cols = tri n := by rw [hGc]; exact hLr
      have hGent2 : ∀ i j, i < tri n → j < tri n →
          G.elem i j = if i = j then 1 / vechDiagWeight n i else 0 := by
        intro i j hi hj
        exact hGent i j (by show i < L.n_rows; rw [hLr]; exact hi)
          (by show j < L.n_rows; rw [hLr]; exact hj)
      have hprod := diag_mul_recip (tri n) (vechDiagWeight n)
        (fun i _ => vechDiagWeight_ne_zero n i)
        ⟨L.n_rows, L.t.n_cols, fun i j => ∑ c in Finset.range m2.n_cols,
          (∑ k in Finset.range L.n_cols, L.elem i k * m2.elem k c) * L.t.elem c j⟩ G
        hdiag hGent2
      refine ⟨hLr, hLr, G, hG, ?_, ?_⟩
      · refine ⟨_, Mat.mul_ok _ G (by show L.n_rows = G.n_rows; rw [hGr2, hLr]), hLr, hGc2, ?_⟩
        intro i hi j hj
        have hi2 : i < tri n := by
          have : i < L.n_rows := hi
          rw [hLr] at this; exact this
        have hj2 : j < tri n := by
          have : j < G.n_cols := hj
          rw [hGc2] at this; exact this
        have := (hprod i j hi2 hj2).1
        rw [← hLr] at this
        exact this
      · refine ⟨_, Mat.mul_ok G _ (by show G.n_cols = L.n_rows; rw [hGc2, hLr]), hGr2, hLr, ?_⟩
        intro i hi j hj
        have hi2 : i < tri n := by
          have : i < G.n_rows := hi
          rw [hGr2] at this; exact this
        have hj2 : j < tri n := by
          have : j < L.n_rows := hj
          rw [hLr] at this; exact this
        have := (hprod i j hi2 hj2).2
        rw [← hGc2] at this
        exact this

/-- Instance of C15 at `n = 2`. -/
theorem duplication_mat_inversion_regular_witness :
    duplication_mat ((2 : Nat) : Int) ≠ .error .singular ∧
    (2 ≤ 2 → ∃ L K m LM inner : Mat,
      elimination_mat ((2 : Nat) : Int) = .ok L ∧ commutation_mat ((2 : Nat) : Int) = .ok K ∧
      Mat.add (Mat.eye (toUword (((2 : Nat) : Int) * ((2 : Nat) : Int)))
        (toUword (((2 : Nat) : Int) * ((2 : Nat) : Int)))) K = .ok m ∧
      Mat.mul L m = .ok LM ∧ Mat.mul LM L.t = .ok inner) ∧
    ∀ L K m LM inner : Mat,
      elimination_mat ((2 : Nat) : Int) = .ok L → commutation_mat ((2 : Nat) : Int) = .ok K →
      Mat.add (Mat.eye (toUword (((2 : Nat) : Int) * ((2 : Nat) : Int)))
        (toUword (((2 : Nat) : Int) * ((2 : Nat) : Int)))) K = .ok m →
      Mat.mul L m = .ok LM → Mat.mul LM L.t = .ok inner →
      inner.n_rows = 2 * (2 + 1) / 2 ∧ inner.n_cols = 2 * (2 + 1) / 2 ∧
      ∃ G, Mat.inv inner = .ok G ∧
        (∃ P, Mat.mul inner G = .ok P ∧ P.sameAs (Mat.eye (2 * (2 + 1) / 2) (2 * (2 + 1) / 2))) ∧
        (∃ Q, Mat.mul G inner = .ok Q ∧ Q.sameAs (Mat.eye (2 * (2 + 1) / 2) (2 * (2 + 1) / 2))) :=
  duplication_mat_inversion_regular 2 (by decide)

/-! ## C17, C18: the duplication matrix for `n ≥ 2` -/

theorem signsOf_elem (n : Nat) (σ : Fin n → Bool) (i : Fin n) :
    (signsOf n σ).elem i 0 = .num (signOf (σ i)) := by
  simp [signsOf, i.isLt]

theorem tiny_lt_denormMin : (2 : ℚ) ^ (-1075 : Int) < (2 : ℚ) ^ (-1074 : Int) :=
  zpow_lt_zpow_right₀ (by norm_num) (by norm_num)

/-- On a finite non-zero double, the product with a sign is not negative exactly when the
sign is that of the double. -/
theorem sign_accept_num (b : Bool) (q : ℚ) (hq : q ≠ 0)
    (hmag : (2 : ℚ) ^ (-1074 : Int) ≤ |q|) :
    ((DoubleVal.num (signOf b)).mul (.num q)).ltZero = false ↔ b = decide (0 < q) := by
  have h1 := tiny_lt_denormMin
  have h0 := two_zpow_pos (-1075)
  rw [← Bool.not_eq_true, mul_ltZero_iff]
  rcases lt_or_gt_of_ne hq with hneg | hpos
  · rw [abs_of_neg hneg] at hmag
    have hd : decide (0 < q) = false := decide_eq_false (not_lt.mpr hneg.le)
    rw [hd]
    cases b
    · simp only [signOf, Bool.false_eq_true, if_false, iff_true, not_lt]
      linarith
    · simp only [signOf, if_true, one_mul, Bool.true_eq_false, iff_false, not_not]
      linarith
  · rw [abs_of_pos hpos] at hmag
    have hd : decide (0 < q) = true := decide_eq_true hpos
    rw [hd]
    cases b
    · simp only [signOf, Bool.false_eq_true, if_false, iff_false, not_not]
      linarith
    · simp only [signOf, if_true, one_mul, iff_true, not_lt]
      linarith

/-- On a double that is neither a zero nor NaN, the product with a sign is not negative
exactly when the sign is that of the double. -/
theorem sign_accept_iff (b : Bool) (d : DoubleVal) (hd : d.aboveDenormMin)
    (hz : d.isZero = false) (hn : d.isNaN = false) :
    ((DoubleVal.num (signOf b)).mul d).ltZero = false ↔ b = d.gtZero := by
  cases d with
  | num q =>
    have hq : q ≠ 0 := by
      intro h
      simp [DoubleVal.isZero, h] at hz
    rcases hd with h0 | hmag
    · exact absurd h0 hq
    · exact sign_accept_num b q hq hmag
  | posInf => cases b <;> norm_num [DoubleVal.mul, DoubleVal.ltZero, DoubleVal.gtZero, signOf]
  | negInf => cases b <;> norm_num [DoubleVal.mul, DoubleVal.ltZero, DoubleVal.gtZero, signOf]
  | nan => simp [DoubleVal.isNaN] at hn

/-- The sign of a double is always accepted. -/
theorem sign_accept_gtZero (d : DoubleVal) :
    ((DoubleVal.num (signOf d.gtZero)).mul d).ltZero = false := by
  cases d with
  | num q =>
    by_cases h : 0 < q
    · have hg : (DoubleVal.num q).gtZero = true := decide_eq_true h
      rw [hg]
      exact mul_ltZero_of_nonneg _ _ (by simp only [signOf, if_true, one_mul]; exact h.le)
    · have hg : (DoubleVal.num q).gtZero = false := decide_eq_false h
      rw [hg]
      refine mul_ltZero_of_nonneg _ _ ?_
      simp only [signOf, Bool.false_eq_true, if_false, neg_mul, one_mul]
      linarith [not_lt.mp h]
  | posInf => norm_num [DoubleVal.mul, DoubleVal.ltZero, DoubleVal.gtZero, signOf]
  | negInf => norm_num [DoubleVal.mul, DoubleVal.ltZero, DoubleVal.gtZero, signOf]
  | nan => rfl

/-- On a zero or a NaN, both signs are accepted. -/
theorem sign_accept_zero_or_nan (b : Bool) (d : DoubleVal)
    (h : d.isZero = true ∨ d.isNaN = true) :
    ((DoubleVal.num (signOf b)).mul d).ltZero = false := by
  cases d with
  | num q =>
    rcases h with h | h
    · have hq : q = 0 := of_decide_eq_true h
      rw [hq]
      exact mul_ltZero_of_nonneg _ _ (by rw [mul_zero])
    · exact Bool.noConfusion h
  | posInf => rcases h with h | h <;> exact Bool.noConfusion h
  | negInf => rcases h with h | h <;> exact Bool.noConfusion h
  | nan => rfl

/-- On a row vector `r` of length `n`, the sign column `σ` is accepted exactly when no
product `signs[i] * r[i]` is negative. -/
theorem indicator_signsOf (n : Nat) (r : DMat) (hr1 : r.n_rows = 1) (hr2 : r.n_cols = n)
    (σ : Fin n → Bool) :
    (indicatorFunction r (signsOf n σ) = .ok 1 ↔
      ∀ i : Fin n, ((DoubleVal.num (signOf (σ i))).mul (r.elem 0 i)).ltZero = false) ∧
    (indicatorFunction r (signsOf n σ) = .ok 1 ∨ indicatorFunction r (signsOf n σ) = .ok 0) := by
  have hok := indicatorFunction_ok r (signsOf n σ) hr1 rfl (by rw [hr2]; exact le_refl n)
  by_cases hd : ∃ k, k < r.n_cols ∧ (((signsOf n σ).elem k 0).mul (r.elem 0 k)).ltZero = true
  · rw [if_pos hd] at hok
    refine ⟨?_, Or.inr hok⟩
    rw [hok]
    constructor
    · intro h
      injection h with h
      exact absurd h (by decide)
    · intro hall
      obtain ⟨k, hk, hneg⟩ := hd
      rw [hr2] at hk
      have hf := hall ⟨k, hk⟩
      rw [← signsOf_elem n σ ⟨k, hk⟩] at hf
      rw [hf] at hneg
      exact Bool.noConfusion hneg
  · rw [if_neg hd] at hok
    refine ⟨?_, Or.inl hok⟩
    rw [hok]
    constructor
    · intro _ i
      rw [← Bool.not_eq_true]
      intro hneg
      apply hd
      refine ⟨i, by rw [hr2]; exact i.isLt, ?_⟩
      rw [signsOf_elem n σ i]
      exact hneg
    · intro _; rfl

theorem orthantValue_eq (n : Nat) (r : DMat) (hr1 : r.n_rows = 1) (hr2 : r.n_cols = n)
    (σ : Fin n → Bool) :
    (indicatorFunction r (signsOf n σ) = .ok 1 → orthantValue r (signsOf n σ) = 1) ∧
    (indicatorFunction r (signsOf n σ) ≠ .ok 1 → orthantValue r (signsOf n σ) = 0) := by
  rcases (indicator_signsOf n r hr1 hr2 σ).2 with h | h
  · refine ⟨fun _ => ?_, fun hne => absurd h hne⟩
    unfold orthantValue
    rw [h]
  · refine ⟨fun h1 => ?_, fun _ => ?_⟩
    · rw [h] at h1
      injection h1 with h1
      exact absurd h1 (by decide)
    · unfold orthantValue
      rw [h]

theorem signPattern_accepted (n : Nat) (r : DMat) (i : Fin n) :
    ((DoubleVal.num (signOf (signPattern n r i))).mul (r.elem 0 i)).ltZero = false :=
  sign_accept_gtZero (r.elem 0 i)

theorem accepted_iff_signPattern (n : Nat) (r : DMat)
    (hdbl : ∀ k, k < n → (r.elem 0 k).aboveDenormMin)
    (hnz : ∀ k, k < n → (r.elem 0 k).isZero = false ∧ (r.elem 0 k).isNaN = false)
    (σ : Fin n → Bool) :
    (∀ i : Fin n, ((DoubleVal.num (signOf (σ i))).mul (r.elem 0 i)).ltZero = false) ↔
      σ = signPattern n r := by
  constructor
  · intro hall
    funext i
    exact (sign_accept_iff (σ i) (r.elem 0 i) (hdbl i i.isLt) (hnz i i.isLt).1
      (hnz i i.isLt).2).mp (hall i)
  · intro h i
    rw [h]
    exact signPattern_accepted n r i

theorem aboveDenormMin_of_one_le (q : ℚ) (h : 1 ≤ |q|) : (DoubleVal.num q).aboveDenormMin := by
  right
  have h1 : (2 : ℚ) ^ (-1074 : Int) < 1 := zpow_lt_one_of_neg₀ (by norm_num) (by norm_num)
  linarith

/-- C19 fails as stated: the length-1 vector `r = [NaN]` has no zero entry, yet both sign
vectors `[+1]` and `[-1]` make `indicatorFunction` return 1; a product with NaN is NaN,
which is not `< 0`. -/
theorem orthant_nan_two_signs :
    nanRow.n_rows = 1 ∧ nanRow.n_cols = 1 ∧
    (∀ k, k < 1 → (nanRow.elem 0 k).isZero = false) ∧
    (signsOf 1 (fun _ => true)).elem 0 0 = .num 1 ∧
    (signsOf 1 (fun _ => false)).elem 0 0 = .num (-1) ∧
    indicatorFunction nanRow (signsOf 1 (fun _ => true)) = .ok 1 ∧
    indicatorFunction nanRow (signsOf 1 (fun _ => false)) = .ok 1 := by
  refine ⟨rfl, rfl, fun _ _ => rfl, ?_, ?_, ?_, ?_⟩
  · simp [signsOf, signOf]
  · simp [signsOf, signOf]
  · exact (indicator_signsOf 1 nanRow rfl rfl _).1.mpr
      (fun _ => sign_accept_zero_or_nan _ _ (Or.inr rfl))
  · exact (indicator_signsOf 1 nanRow rfl rfl _).1.mpr
      (fun _ => sign_accept_zero_or_nan _ _ (Or.inr rfl))

/-- C19, amended: let `r` be a row vector of `n ≥ 1` doubles (each finite entry is zero or
of magnitude at least `2 ^ (-1074)`, as every double is).  If `r` has no zero entry
and no NaN entry, a sign column `s` in `{-1, +1}^n` makes `indicatorFunction(r, s) = 1`
exactly when `s[i] = +1` where `r[i] > 0` and `s[i] = -1` where `r[i] < 0`; there is
exactly one such `s`, and the indicators of all sign columns sum to 1.  If `r` has a zero
entry or a NaN entry, two different sign columns return 1, and the indicators sum to at
least 2. -/
theorem orthant_indicator_count (n : Nat) (_hn : 1 ≤ n) (r : DMat) (hr1 : r.n_rows = 1)
    (hr2 : r.n_cols = n) (hdbl : ∀ k, k < n → (r.elem 0 k).aboveDenormMin) :
    ((∀ k, k < n → (r.elem 0 k).isZero = false ∧ (r.elem 0 k).isNaN = false) →
      (∀ σ : Fin n → Bool, indicatorFunction r (signsOf n σ) = .ok 1 ↔
        ∀ i : Fin n, σ i = (r.elem 0 i).gtZero) ∧
      (∃! σ : Fin n → Bool, indicatorFunction r (signsOf n σ) = .ok 1) ∧
      (∑ σ : Fin n → Bool, orthantValue r (signsOf n σ)) = 1) ∧
    ((∃ k, k < n ∧ ((r.elem 0 k).isZero = true ∨ (r.elem 0 k).isNaN = true)) →
      (∃ σ τ : Fin n → Bool, σ ≠ τ ∧ indicatorFunction r (signsOf n σ) = .ok 1 ∧
        indicatorFunction r (signsOf n τ) = .ok 1) ∧
      2 ≤ ∑ σ : Fin n → Bool, orthantValue r (signsOf n σ)) := by
  constructor
  · intro hnz
    have hchar : ∀ σ : Fin n → Bool,
        indicatorFunction r (signsOf n σ) = .ok 1 ↔ σ = signPattern n r := by
      intro σ
      rw [(indicator_signsOf n r hr1 hr2 σ).1, accepted_iff_signPattern n r hdbl hnz σ]
    refine ⟨?_, ?_, ?_⟩
    · intro σ
      rw [hchar σ]
      constructor
      · intro h i; rw [h]; rfl
      · intro h; funext i; exact h i
    · exact ⟨signPattern n r, (hchar _).mpr rfl, fun τ hτ => (hchar τ).mp hτ⟩
    · have hval : ∀ σ : Fin n → Bool,
          orthantValue r (signsOf n σ) = if σ = signPattern n r then 1 else 0 := by
        intro σ
        by_cases h : σ = signPattern n r
        · rw [if_pos h]
          exact (orthantValue_eq n r hr1 hr2 σ).1 ((hchar σ).mpr h)
        · rw [if_neg h]
          exact (orthantValue_eq n r hr1 hr2 σ).2 (fun hc => h ((hchar σ).mp hc))
      simp only [hval]
      rw [Finset.sum_ite_eq']
      simp
  · rintro ⟨k, hk, hzero⟩
    have hσ : indicatorFunction r (signsOf n (signPattern n r)) = .ok 1 :=
      (indicator_signsOf n r hr1 hr2 _).1.mpr (signPattern_accepted n r)
    have hτ : indicatorFunction r
        (signsOf n (Function.update (signPattern n r) ⟨k, hk⟩ (!signPattern n r ⟨k, hk⟩)))
          = .ok 1 := by
      apply (indicator_signsOf n r hr1 hr2 _).1.mpr
      intro i
      by_cases hik : i = ⟨k, hk⟩
      · subst hik
        rw [Function.update_same]
        exact sign_accept_zero_or_nan _ _ hzero
      · rw [Function.update_noteq hik]
        exact signPattern_accepted n r i
    have hne : signPattern n r ≠
        Function.update (signPattern n r) ⟨k, hk⟩ (!signPattern n r ⟨k, hk⟩) := by
      intro heq
      have h1 := congrFun heq ⟨k, hk⟩
      rw [Function.update_same] at h1
      cases hb : signPattern n r ⟨k, hk⟩ <;> rw [hb] at h1 <;> exact Bool.noConfusion h1
    refine ⟨⟨_, _, hne, hσ, hτ⟩, ?_⟩
    have hnonneg : ∀ σ : Fin n → Bool, 0 ≤ orthantValue r (signsOf n σ) := by
      intro σ
      by_cases h : indicatorFunction r (signsOf n σ) = .ok 1
      · rw [(orthantValue_eq n r hr1 hr2 σ).1 h]; decide
      · rw [(orthantValue_eq n r hr1 hr2 σ).2 h]
    have hsub : (∑ σ in ({signPattern n r,
          Function.update (signPattern n r) ⟨k, hk⟩ (!signPattern n r ⟨k, hk⟩)} :
          Finset (Fin n → Bool)), orthantValue r (signsOf n σ)) ≤
        ∑ σ : Fin n → Bool, orthantValue r (signsOf n σ) :=
      Finset.sum_le_sum_of_subset_of_nonneg (Finset.subset_univ _) (fun σ _ _ => hnonneg σ)
    rw [Finset.sum_pair hne, (orthantValue_eq n r hr1 hr2 _).1 hσ,
      (orthantValue_eq n r hr1 hr2 _).1 hτ] at hsub
    exact hsub

/-- Instance of the amended C19: `r = [1, 2, -3]` has no zero and no NaN entry, so
exactly one sign column is accepted and the indicators sum to 1; `r = [0, 1]` has a zero
entry, so two sign columns are accepted and the indicators sum to at least 2. -/
theorem orthant_indicator_count_witness :
    ((∃! σ : Fin 3 → Bool, indicatorFunction (rowVec [1, 2, -3]) (signsOf 3 σ) = .ok 1) ∧
      (∑ σ : Fin 3 → Bool, orthantValue (rowVec [1, 2, -3]) (signsOf 3 σ)) = 1) ∧
    ((∃ σ τ : Fin 2 → Bool, σ ≠ τ ∧
        indicatorFunction (rowVec [0, 1]) (signsOf 2 σ) = .ok 1 ∧
        indicatorFunction (rowVec [0, 1]) (signsOf 2 τ) = .ok 1) ∧
      2 ≤ ∑ σ : Fin 2 → Bool, orthantValue (rowVec [0, 1]) (signsOf 2 σ)) := by
  constructor
  · refine ((orthant_indicator_count 3 (by decide) (rowVec [1, 2, -3]) rfl rfl ?_).1 ?_).2
    · intro k hk
      interval_cases k <;> simp only [rowVec] <;>
        exact aboveDenormMin_of_one_le _ (by norm_num [abs_of_pos, abs_of_neg])
    · intro k hk
      interval_cases k <;> simp [rowVec, DoubleVal.isZero, DoubleVal.isNaN]
  · refine (orthant_indicator_count 2 (by decide) (rowVec [0, 1]) rfl rfl ?_).2
      ⟨0, by decide, Or.inl (by simp [rowVec, DoubleVal.isZero])⟩
    intro k hk
    interval_cases k
    · left; simp
    · simp only [rowVec]
      exact aboveDenormMin_of_one_le _ (by norm_num)

end BEKKs
